import Mathlib

/-!
# odgi viz: the contact-map rasteriser of `src/subcommand/viz_main.cpp`

A shallow embedding of `main_viz` (from the output-file check on line 114 to the
`return 0` on line 235) and of the two lambdas `add_point` and `add_edge` it defines.

* `uint64_t` values are `Nat`s reduced modulo `2 ^ 64` wherever the C++ arithmetic can wrap.
* `uint8_t` values are `Nat`s reduced modulo `256`.
* `float` values are modelled bit-exactly as non-negative IEEE-754 binary32 numbers
  (`F32`): every operation computes the exact rational result and rounds it to the nearest
  representable value, ties to even.  The program never produces a negative float from
  the unsigned inputs modelled here, so the sign bit is left out.
* `std::vector<uint8_t> image` is a `List Nat`; an access outside the vector is the error
  `Err.oob`, and an `image.resize` that cannot obtain its memory is the error `Err.alloc`.
* the three stepping loops of `add_edge` are not obviously terminating, so they take a
  fuel argument and report `Err.fuel` when it runs out.
-/

set_option maxRecDepth 100000
set_option autoImplicit false

namespace Odgi

/-! ## Machine integers -/

/-- The modulus of `uint64_t` arithmetic. -/
abbrev U64 : Nat := 2 ^ 64

/-- The modulus of `unsigned` arithmetic. -/
abbrev U32 : Nat := 2 ^ 32

/-! ## binary32 -/

/-- A non-negative binary32 value: `fin m e` is the number `m * 2 ^ e / 2 ^ 149`
(so `e = 0` is the exponent of the subnormals), `inf` is `+infinity`, `nan` is a NaN.
The values produced by the operations below are canonical: `m < 2 ^ 24`, and
`2 ^ 23 ≤ m` unless `e = 0`. -/
inductive F32 where
  | fin (m : Nat) (e : Nat)
  | inf
  | nan
  deriving DecidableEq, Repr

/-- Halving counter behind `ilog2`; the first argument bounds the recursion. -/
def ilog2_go : Nat → Nat → Nat
  | 0, _ => 0
  | fuel + 1, n => if n < 2 then 0 else ilog2_go fuel (n / 2) + 1

/-- The position of the highest set bit of `n` (`0` for `n ≤ 1`). -/
def ilog2 (n : Nat) : Nat := ilog2_go n n

/-- Round the rational `n / d` (`0 < d`) to the nearest binary32 value, ties to even;
results of magnitude `2 ^ 128` or more become `inf`. -/
def F32.rnd (n d : Nat) : F32 :=
  let N := n * 2 ^ 149
  let e := ilog2 (N / d) - 23
  let D := d * 2 ^ e
  let q := N / D
  let r := N % D
  let q := if D < 2 * r ∨ (2 * r = D ∧ q % 2 = 1) then q + 1 else q
  let e := if q = 2 ^ 24 then e + 1 else e
  let q := if q = 2 ^ 24 then 2 ^ 23 else q
  if 253 < e then F32.inf else F32.fin q e

/-- The conversion `(float)n` of an unsigned integer. -/
def F32.ofNat (n : Nat) : F32 := F32.rnd n 1

/-- Whether the value is zero (the C++ conversion of a float to `bool` is its negation). -/
def F32.isZero : F32 → Bool
  | .fin m _ => m = 0
  | _ => false

/-- Float multiplication. -/
def F32.mul : F32 → F32 → F32
  | .fin m1 e1, .fin m2 e2 => F32.rnd (m1 * 2 ^ e1 * (m2 * 2 ^ e2)) (2 ^ 149 * 2 ^ 149)
  | .fin m _, .inf => if m = 0 then .nan else .inf
  | .inf, .fin m _ => if m = 0 then .nan else .inf
  | .inf, .inf => .inf
  | _, _ => .nan

/-- Float division. -/
def F32.div : F32 → F32 → F32
  | .fin m1 e1, .fin m2 e2 =>
    if m2 = 0 then (if m1 = 0 then .nan else .inf) else F32.rnd (m1 * 2 ^ e1) (m2 * 2 ^ e2)
  | .fin _ _, .inf => .fin 0 0
  | .inf, .fin _ _ => .inf
  | _, _ => .nan

/-- Float addition. -/
def F32.add : F32 → F32 → F32
  | .fin m1 e1, .fin m2 e2 => F32.rnd (m1 * 2 ^ e1 + m2 * 2 ^ e2) (2 ^ 149)
  | .fin _ _, .inf => .inf
  | .inf, .fin _ _ => .inf
  | .inf, .inf => .inf
  | _, _ => .nan

/-- The function `std::round`: nearest integer, halfway cases away from zero.  The result
is an integer below `2 ^ 24` or the argument itself, hence exactly representable. -/
def F32.round : F32 → F32
  | .fin m e => F32.ofNat ((2 * (m * 2 ^ e) + 2 ^ 149) / 2 ^ 150)
  | x => x

/-- Truncation toward zero of a finite value. -/
def F32.trunc? : F32 → Option Nat
  | .fin m e => some (m * 2 ^ e / 2 ^ 149)
  | _ => none

/-- Conversion of a float to an unsigned integer type with `w` values.  In range the value
is truncated; out of range (or for `inf`, `nan`) C++ leaves the result undefined, and `oor`
is whatever value the platform then produces. -/
def to_uint (oor : F32 → Nat) (w : Nat) (x : F32) : Nat :=
  match x.trunc? with
  | some t => if t < w then t else oor x % w
  | none => oor x % w

/-! ## The variables captured by the lambdas -/

/-- The locals of `main_viz` that `add_point` and `add_edge` capture by reference, except
`image` (threaded explicitly) and `position_map`. -/
structure Env where
  width : Nat
  height : Nat
  scale : F32
  alpha_value : F32
  oor : F32 → Nat

/-- Failure of a run of the model. -/
inductive Err where
  | oob
  | fuel
  | alloc
  deriving DecidableEq, Repr

/-- Equality of results of the model is decidable. -/
instance decEqExcept {α : Type} [DecidableEq α] : DecidableEq (Except Err α)
  | .ok a, .ok b =>
    if h : a = b then isTrue (by rw [h]) else isFalse (by intro e; cases e; exact h rfl)
  | .error a, .error b =>
    if h : a = b then isTrue (by rw [h]) else isFalse (by intro e; cases e; exact h rfl)
  | .ok _, .error _ => isFalse (by intro e; cases e)
  | .error _, .ok _ => isFalse (by intro e; cases e)

/-- The local `x` of `add_point`: `std::min((uint64_t)std::round(_x * scale), width-1)`. -/
def Env.pixel_x (c : Env) (_x : Nat) : Nat :=
  min (to_uint c.oor U64 (F32.round (F32.mul (F32.ofNat _x) c.scale))) ((c.width + U64 - 1) % U64)

/-- The local `y` of `add_point`: `std::min((uint64_t)std::round(_y * scale), height-1)`. -/
def Env.pixel_y (c : Env) (_y : Nat) : Nat :=
  min (to_uint c.oor U64 (F32.round (F32.mul (F32.ofNat _y) c.scale))) ((c.height + U64 - 1) % U64)

/-- The local `v` of `add_point`: `uint8_t v = alpha_value`. -/
def Env.v (c : Env) : Nat := to_uint c.oor 256 c.alpha_value

/-- The index expression `4 * width * y + 4 * x + k` in `uint64_t` arithmetic. -/
def Env.index (c : Env) (x y k : Nat) : Nat := (4 * c.width * y + 4 * x + k) % U64

/-- The statement `if (*p >= v) *p -= v;` on the byte at index `i`. -/
def sub_if_ge (image : List Nat) (i v : Nat) : List Nat :=
  if v ≤ image.getD i 0 then image.set i ((image.getD i 0 + 256 - v) % 256) else image

/-- The lambda `add_point` (lines 137-149). -/
def add_point (c : Env) (image : List Nat) (_x _y : Nat) : Except Err (List Nat) :=
  let x := c.pixel_x _x
  let y := c.pixel_y _y
  let v := c.v
  let r := c.index x y 0
  let g := c.index x y 1
  let b := c.index x y 2
  let a := c.index x y 3
  if r < image.length ∧ g < image.length ∧ b < image.length ∧ a < image.length then
    let image := sub_if_ge image r v
    let image := sub_if_ge image g v
    let image := sub_if_ge image b v
    .ok (image.set a 255)
  else .error .oob

/-! ## The graph and the position map -/

/-- Modelled from the spec: `graph.hpp` is not part of the sources, so the graph provider
is its interface (spec section 6): the handles in `for_each_handle` order, the canonical
number of a handle, the length of a handle, and the targets of `follow_edges`. -/
structure graph_t where
  handles : List Nat
  unpack_number : Nat → Nat
  get_length : Nat → Nat
  follow_edges : Nat → Bool → List Nat

/-- Modelled from the spec: the `hash_map<uint64_t, uint64_t>` template is not part of the
sources; it is a key/value list with at most one entry per key. -/
abbrev hash_map := List (Nat × Nat)

/-- The assignment `m[k] = v`. -/
def hash_map.set : hash_map → Nat → Nat → hash_map
  | [], k, v => [(k, v)]
  | (k', v') :: rest, k, v =>
    if k' = k then (k, v) :: rest else (k', v') :: hash_map.set rest k v

/-- The read `m[k]`; a missing key reads as the default value `0`. -/
def hash_map.get : hash_map → Nat → Nat
  | [], _ => 0
  | (k', v') :: rest, k => if k' = k then v' else hash_map.get rest k

/-- The first `for_each_handle` pass (lines 120-127): the position map and `len`. -/
def build_position_map (graph : graph_t) : hash_map × Nat :=
  graph.handles.foldl
    (fun s h => (hash_map.set s.1 (graph.unpack_number h) s.2, (s.2 + graph.get_length h) % U64))
    ([], 0)

/-! ## The stepping loops -/

/-- The update `i += 1/scale` of an unsigned counter: the counter is converted to float,
the float quotient `1/scale` is added, and the sum is converted back. -/
def Env.step (c : Env) (i : Nat) : Nat :=
  to_uint c.oor U64 (F32.add (F32.ofNat i) (F32.div (F32.ofNat 1) c.scale))

/-- The loop `for ( ; i < dist; i+=1/scale) add_point(x, i);` (lines 158-160 and,
from `0`, 165-167); returns the image and the final counter. -/
def walk_y (c : Env) (x dist : Nat) : Nat → List Nat → Nat → Except Err (List Nat × Nat)
  | 0, image, i => if i < dist then .error .fuel else .ok (image, i)
  | fuel + 1, image, i =>
    if i < dist then
      match add_point c image x i with
      | .ok image => walk_y c x dist fuel image (c.step i)
      | .error e => .error e
    else .ok (image, i)

/-- The loop `while (a < b) { add_point(a, i); a += 1/scale; }` (lines 161-164). -/
def walk_x (c : Env) (b i : Nat) : Nat → List Nat → Nat → Except Err (List Nat)
  | 0, image, a => if a < b then .error .fuel else .ok image
  | fuel + 1, image, a =>
    if a < b then
      match add_point c image a i with
      | .ok image => walk_x c b i fuel image (c.step a)
      | .error e => .error e
    else .ok image

/-- The lambda `add_edge` (lines 151-168). -/
def add_edge (c : Env) (graph : graph_t) (position_map : hash_map) (fuel : Nat)
    (image : List Nat) (h o : Nat) : Except Err (List Nat) :=
  let _a := position_map.get (graph.unpack_number h)
  let _b := position_map.get (graph.unpack_number o)
  let a := min _a _b
  let b := max _a _b
  let dist := b - a
  match walk_y c a dist fuel image 0 with
  | .error e => .error e
  | .ok (image, i) =>
    match walk_x c b i fuel image a with
    | .error e => .error e
    | .ok image =>
      match walk_y c b dist fuel image 0 with
      | .error e => .error e
      | .ok (image, _) => .ok image

/-! ## The two drawing passes and `main_viz` -/

/-- The body of the second `for_each_handle` pass for one handle (lines 171-176). -/
def self_points (graph : graph_t) (position_map : hash_map) (h : Nat) : List (Nat × Nat) :=
  (List.range (graph.get_length h)).map
    (fun i => ((position_map.get (graph.unpack_number h) + i) % U64, 0))

/-- A sequence of `add_point` calls. -/
def add_points (c : Env) (image : List Nat) (ps : List (Nat × Nat)) : Except Err (List Nat) :=
  ps.foldlM (fun image p => add_point c image p.1 p.2) image

/-- The second `for_each_handle` pass (lines 170-177). -/
def self_pass (c : Env) (graph : graph_t) (position_map : hash_map) (image : List Nat) :
    Except Err (List Nat) :=
  graph.handles.foldlM (fun image h => add_points c image (self_points graph position_map h)) image

/-- The third `for_each_handle` pass (lines 181-192). -/
def edge_pass (c : Env) (graph : graph_t) (position_map : hash_map) (fuel : Nat)
    (image : List Nat) : Except Err (List Nat) :=
  graph.handles.foldlM
    (fun image h =>
      (graph.follow_edges h false).foldlM
        (fun image o => add_edge c graph position_map fuel image h o) image)
    image

/-- The parsed command line, as far as `main_viz` uses it after loading the graph. -/
structure Args where
  png_out_file : String
  image_width : Nat
  image_height : Nat
  alpha : F32

/-- What a run of `main_viz` leaves behind: its return value and the arguments of the
call of `png::encodeOneStep`, if it was reached. -/
structure Output where
  ret : Nat
  emitted : Option (String × List Nat × Nat × Nat)
  deriving DecidableEq, Repr

/-- The local `width` (line 129). -/
def Args.width (args : Args) : Nat := if args.image_width ≠ 0 then args.image_width else 1000

/-- The local `height` (line 130). -/
def Args.height (args : Args) : Nat := if args.image_height ≠ 0 then args.image_height else 1000

/-- The size given to `image.resize` (line 132). -/
def canvas_size (width height : Nat) : Nat := (width * height * 4) % U64

/-- The locals `width`, `height`, `scale` and `alpha_value` (lines 129-135). -/
def mk_env (oor : F32 → Nat) (args : Args) (len : Nat) : Env where
  width := args.width
  height := args.height
  scale := F32.div (F32.ofNat args.width) (F32.ofNat len)
  alpha_value := F32.mul (F32.ofNat 255) (if args.alpha.isZero then F32.ofNat 1 else args.alpha)
  oor := oor

/-- The function `main_viz` from line 114 on, for a loaded graph, in a run in which
`image.resize` (line 132) obtains its memory.  The parameters `width` and `height` of
`png::encodeOneStep` are `unsigned`, so the call on line 233 passes the two `uint64_t` values
modulo `2 ^ 32`. -/
def main_viz (oor : F32 → Nat) (args : Args) (graph : graph_t) (fuel : Nat) :
    Except Err Output :=
  if args.png_out_file.length = 0 then .ok ⟨1, none⟩
  else
    let pl := build_position_map graph
    let c := mk_env oor args pl.2
    let image := List.replicate (canvas_size c.width c.height) 255
    match self_pass c graph pl.1 image with
    | .error e => .error e
    | .ok image =>
      match edge_pass c graph pl.1 fuel image with
      | .error e => .error e
      | .ok image => .ok ⟨0, some (args.png_out_file, image, c.width % U32, c.height % U32)⟩

/-- The function `main_viz` from line 114 on, for a loaded graph, on a machine where
`image.resize` can obtain at most `mem` bytes: a larger request makes line 132 throw, which
ends the program (`Err.alloc`) before any pixel is written and without a call of the
emitter. -/
def main_viz_mem (mem : Nat) (oor : F32 → Nat) (args : Args) (graph : graph_t) (fuel : Nat) :
    Except Err Output :=
  if args.png_out_file.length = 0 then .ok ⟨1, none⟩
  else
    let pl := build_position_map graph
    let c := mk_env oor args pl.2
    if mem < canvas_size c.width c.height then .error .alloc
    else
      let image := List.replicate (canvas_size c.width c.height) 255
      match self_pass c graph pl.1 image with
      | .error e => .error e
      | .ok image =>
        match edge_pass c graph pl.1 fuel image with
        | .error e => .error e
        | .ok image => .ok ⟨0, some (args.png_out_file, image, c.width % U32, c.height % U32)⟩

/-! ## Specification-side notions used in the statements -/

/-- One channel update of `add_point`, as a function of the accumulation value and the
current byte. -/
def chan (v c : Nat) : Nat := if v ≤ c then (c + 256 - v) % 256 else c

/-- The four writes of `add_point` at the pixel whose first byte is at index `p`. -/
def paint (v : Nat) (image : List Nat) (p : Nat) : List Nat :=
  (sub_if_ge (sub_if_ge (sub_if_ge image p v) (p + 1) v) (p + 2) v).set (p + 3) 255

/-- The index of the first byte of the pixel addressed by `add_point(_x, _y)`. -/
def Env.base (c : Env) (_x _y : Nat) : Nat := c.index (c.pixel_x _x) (c.pixel_y _y) 0

/-- A canvas of the data model: both dimensions positive, the byte count
`width * height * 4` representable, and the image of exactly that size. -/
def Canvas (c : Env) (image : List Nat) : Prop :=
  1 ≤ c.width ∧ 1 ≤ c.height ∧ c.width * c.height * 4 < U64 ∧
    image.length = c.width * c.height * 4

instance (c : Env) (image : List Nat) : Decidable (Canvas c image) := by
  unfold Canvas; infer_instance

/-- The images obtained from a sequence of `add_point` calls when none leaves the image. -/
def paint_all (c : Env) (image : List Nat) (ps : List (Nat × Nat)) : List Nat :=
  ps.foldl (fun image p => paint c.v image (c.base p.1 p.2)) image

/-- All `add_point` calls of the element pass, in order. -/
def all_self_points (graph : graph_t) (position_map : hash_map) : List (Nat × Nat) :=
  (graph.handles.map (self_points graph position_map)).flatten

/-- A drawing procedure is oblivious on canvases when it maps canvases to canvases and
commutes with painting any addressed pixel first. -/
def Oblivious (c : Env) (G : List Nat → Except Err (List Nat)) : Prop :=
  ∀ image, Canvas c image →
    (∀ r, G image = .ok r → Canvas c r) ∧
    ∀ a b, G (paint c.v image (c.base a b)) =
      match G image with
      | .ok r => .ok (paint c.v r (c.base a b))
      | .error e => .error e

/-! ## Concrete runs referred to by the statements below -/

/-- A platform on which every out-of-range conversion produces `0`. -/
def oor_zero : F32 → Nat := fun _ => 0

/-- The float `0.5`. -/
def half : F32 := F32.fin 8388608 125

/-- A graph without handles. -/
def graph_empty : graph_t := ⟨[], fun h => h, fun _ => 0, fun _ _ => []⟩

/-- A graph with the single handle `0`, of length `1`, and no edge. -/
def graph_unit : graph_t := ⟨[0], fun h => h, fun _ => 1, fun _ _ => []⟩

/-- Scenario A: one handle of length `10`, no edge. -/
def graph_A : graph_t := ⟨[0], fun h => h, fun _ => 10, fun _ _ => []⟩

/-- Scenario A: width `100`, height `100`, alpha `1`. -/
def args_A : Args := ⟨"out.png", 100, 100, F32.ofNat 1⟩

/-- Scenario B: two handles of length `5` and one forward edge from the first to the
second. -/
def graph_B : graph_t :=
  ⟨[0, 1], fun h => h, fun _ => 5, fun h left => if h = 0 ∧ left = false then [1] else []⟩

/-- Scenario B: width `50`; height and alpha are left at their defaults. -/
def args_B : Args := ⟨"out.png", 50, 0, F32.fin 0 0⟩

/-- Scenario C: a single pixel and alpha `0.5`. -/
def args_C : Args := ⟨"out.png", 1, 1, half⟩

/-- A command line asking for a `2 ^ 62` by `1` image. -/
def args_wide : Args := ⟨"out.png", 2 ^ 62, 1, F32.fin 0 0⟩

/-- A command line asking for a `2 ^ 62 + 1` by `4` image. -/
def args_wrap : Args := ⟨"out.png", 2 ^ 62 + 1, 4, F32.fin 0 0⟩

/-- A command line asking for a `2` by `2` image. -/
def args_small : Args := ⟨"out.png", 2, 2, F32.fin 0 0⟩

/-- Two handles of length `1` and one forward edge from the first to the second. -/
def graph_pair : graph_t :=
  ⟨[0, 1], fun h => h, fun _ => 1, fun h left => if h = 0 ∧ left = false then [1] else []⟩

/-- Three handles of lengths `16777218`, `6` and `16777208` (total `2 ^ 25`) and one
forward edge from the second to the third. -/
def graph_long : graph_t :=
  ⟨[0, 1, 2], fun h => h,
    fun h => if h = 0 then 16777218 else if h = 1 then 6 else 16777208,
    fun h left => if h = 1 ∧ left = false then [2] else []⟩

/-- A command line asking for a `2 ^ 25` by `1` image, one pixel per base of `graph_long`. -/
def args_long : Args := ⟨"out.png", 33554432, 1, F32.fin 0 0⟩

/-! ## The rounding function of the float model -/

theorem two_pow_ilog2_go_le : ∀ (fuel n : Nat), 1 ≤ n → 2 ^ ilog2_go fuel n ≤ n := by
  intro fuel
  induction fuel with
  | zero => intro n hn; simpa [ilog2_go] using hn
  | succ k ih =>
    intro n hn
    by_cases h : n < 2
    · simpa [ilog2_go, h] using hn
    · have := ih (n / 2) (by omega)
      simp only [ilog2_go, if_neg h, pow_succ]
      omega

theorem lt_two_pow_ilog2_go : ∀ (fuel n : Nat), n ≤ fuel → n < 2 ^ (ilog2_go fuel n + 1) := by
  intro fuel
  induction fuel with
  | zero =>
    intro n hn
    have h0 : n = 0 := by omega
    subst h0
    norm_num [ilog2_go]
  | succ k ih =>
    intro n hn
    by_cases h : n < 2
    · simp only [ilog2_go, if_pos h]
      omega
    · have := ih (n / 2) (by omega)
      simp only [ilog2_go, if_neg h]
      rw [pow_succ]
      omega

theorem rnd_arith_up (P M r N q0 : Nat) (hr : r < P) (hN : M + r = N)
    (hup : P < 2 * r ∨ 2 * r = P ∧ q0 % 2 = 1) :
    2 * (M + P) ≤ 2 * N + P ∧ 2 * N ≤ 2 * (M + P) + P ∧
      (2 * (M + P) = 2 * N + P ∨ 2 * N = 2 * (M + P) + P → (q0 + 1) % 2 = 0) := by
  omega

theorem rnd_arith_down (P M r N q0 : Nat) (hP : 0 < P) (hN : M + r = N)
    (hup : ¬ (P < 2 * r ∨ 2 * r = P ∧ q0 % 2 = 1)) :
    2 * M ≤ 2 * N + P ∧ 2 * N ≤ 2 * M + P ∧
      (2 * M = 2 * N + P ∨ 2 * N = 2 * M + P → q0 % 2 = 0) := by
  omega

theorem rnd_arith_carry (P r N q0 : Nat) (hr : r < P) (hN : 16777215 * P + r = N)
    (hup : P < 2 * r ∨ 2 * r = P ∧ q0 % 2 = 1) :
    2 * (16777216 * P) ≤ 2 * N + 2 * P ∧ 2 * N ≤ 2 * (16777216 * P) + 2 * P ∧
      33554431 * P ≤ 2 * N := by
  omega

theorem rnd_arith_big (P Q M N r : Nat) (hQ : 2 * Q ≤ P) (hM : 8388608 * P ≤ M)
    (hN : M + r = N) : 33554431 * Q ≤ 2 * N := by
  omega

/-- The rounding function returns a canonical value within half a unit in the last place of
the exact quotient, and on a tie the one with the even significand; it returns `inf` only
when the quotient is at least the midpoint between the largest finite value and `2 ^ 128`. -/
theorem rnd_nearest (n d : Nat) (hd : 0 < d) :
    (F32.rnd n d = F32.inf ∧ 33554431 * (2 ^ 253 * d) ≤ 2 * (n * 2 ^ 149)) ∨
      ∃ q e, F32.rnd n d = F32.fin q e ∧ q < 2 ^ 24 ∧ (e = 0 ∨ 2 ^ 23 ≤ q) ∧ e ≤ 253 ∧
        2 * (q * (2 ^ e * d)) ≤ 2 * (n * 2 ^ 149) + 2 ^ e * d ∧
        2 * (n * 2 ^ 149) ≤ 2 * (q * (2 ^ e * d)) + 2 ^ e * d ∧
        ((2 * (q * (2 ^ e * d)) = 2 * (n * 2 ^ 149) + 2 ^ e * d ∨
          2 * (n * 2 ^ 149) = 2 * (q * (2 ^ e * d)) + 2 ^ e * d) → q % 2 = 0) := by
  unfold F32.rnd
  simp only
  generalize n * 2 ^ 149 = N
  have hX1 : N / d < 2 ^ (ilog2 (N / d) + 1) := lt_two_pow_ilog2_go (N / d) (N / d) le_rfl
  have hX2 : 1 ≤ N / d → 2 ^ ilog2 (N / d) ≤ N / d := two_pow_ilog2_go_le (N / d) (N / d)
  have hX0 : N / d = 0 → ilog2 (N / d) = 0 := fun h => by rw [h]; rfl
  have hq0 : N / (d * 2 ^ (ilog2 (N / d) - 23)) = N / d / 2 ^ (ilog2 (N / d) - 23) :=
    (Nat.div_div_eq_div_mul N d _).symm
  generalize ilog2 (N / d) = L at *
  generalize N / d = X at *
  generalize he : L - 23 = e at *
  have c24 : (2 : Nat) ^ 24 = 16777216 := by norm_num
  have c23 : (2 : Nat) ^ 23 = 8388608 := by norm_num
  have hlt : N / (d * 2 ^ e) < 16777216 := by
    rw [hq0, ← c24]
    apply Nat.div_lt_of_lt_mul
    calc X < 2 ^ (L + 1) := hX1
      _ ≤ 2 ^ (e + 24) := Nat.pow_le_pow_right (by norm_num) (by omega)
      _ = 2 ^ e * 2 ^ 24 := by rw [pow_add]
  have hnorm : e = 0 ∨ 8388608 ≤ N / (d * 2 ^ e) := by
    by_cases h0 : e = 0
    · exact Or.inl h0
    · right
      rw [hq0, ← c23]
      have hL' : L = 23 + e := by omega
      have h1 : 1 ≤ X := by
        by_contra hc
        have := hX0 (by omega)
        omega
      have h2 := hX2 h1
      rw [hL', pow_add] at h2
      exact (Nat.le_div_iff_mul_le (by positivity)).2 h2
  clear hq0 hX0 hX1 hX2 he
  have hP : d * 2 ^ e = 2 ^ e * d := Nat.mul_comm _ _
  have hPpos : 0 < 2 ^ e * d := Nat.mul_pos (by positivity) hd
  have hdm : N / (2 ^ e * d) * (2 ^ e * d) + N % (2 ^ e * d) = N := Nat.div_add_mod' N _
  have hr := Nat.mod_lt N hPpos
  have hsucc : 2 ^ (e + 1) * d = 2 * (2 ^ e * d) := by rw [pow_succ]; ring
  have h253 : 253 ≤ e → 2 ^ 253 * d ≤ 2 ^ e * d := fun h =>
    Nat.mul_le_mul_right d (Nat.pow_le_pow_right (by norm_num) h)
  have h254 : 253 < e → 2 * (2 ^ 253 * d) ≤ 2 ^ e * d := fun h => by
    have h1 : 2 ^ 254 * d ≤ 2 ^ e * d :=
      Nat.mul_le_mul_right d (Nat.pow_le_pow_right (by norm_num) h)
    have h2 : 2 ^ 254 * d = 2 * (2 ^ 253 * d) := by rw [pow_succ]; ring
    rw [← h2]
    exact h1
  rw [hP] at hlt hnorm ⊢
  rw [c24, c23]
  generalize N / (2 ^ e * d) = q0 at *
  generalize N % (2 ^ e * d) = r at *
  generalize 2 ^ 253 * d = Q at *
  have hbig : 253 < e → 33554431 * Q ≤ 2 * N := by
    intro h
    have h1 : 8388608 ≤ q0 := by
      rcases hnorm with h0 | h0
      · omega
      · exact h0
    exact rnd_arith_big _ _ _ _ _ (h254 h) (Nat.mul_le_mul_right _ h1) hdm
  by_cases hup : 2 ^ e * d < 2 * r ∨ 2 * r = 2 ^ e * d ∧ q0 % 2 = 1
  · simp only [if_pos hup]
    by_cases hc : q0 + 1 = 16777216
    · simp only [if_pos hc]
      have hq : q0 = 16777215 := by omega
      rw [hq] at hdm
      have hA := rnd_arith_carry _ _ _ _ hr hdm hup
      by_cases hinf : 253 < e + 1
      · left
        rw [if_pos hinf]
        exact ⟨rfl, le_trans (Nat.mul_le_mul_left _ (h253 (by omega))) hA.2.2⟩
      · right
        rw [if_neg hinf]
        refine ⟨8388608, e + 1, rfl, by norm_num, Or.inr le_rfl, by omega, ?_⟩
        have h8 : 8388608 * (2 * (2 ^ e * d)) = 16777216 * (2 ^ e * d) := by ring
        rw [hsucc, h8]
        exact ⟨hA.1, hA.2.1, fun _ => by norm_num⟩
    · simp only [if_neg hc]
      by_cases hinf : 253 < e
      · left
        rw [if_pos hinf]
        exact ⟨rfl, hbig hinf⟩
      · right
        rw [if_neg hinf]
        refine ⟨q0 + 1, e, rfl, by omega, by omega, by omega, ?_⟩
        have hm : (q0 + 1) * (2 ^ e * d) = q0 * (2 ^ e * d) + 2 ^ e * d := by ring
        rw [hm]
        exact rnd_arith_up _ _ _ _ _ hr hdm hup
  · simp only [if_neg hup]
    have hc : ¬ q0 = 16777216 := by omega
    simp only [if_neg hc]
    by_cases hinf : 253 < e
    · left
      rw [if_pos hinf]
      exact ⟨rfl, hbig hinf⟩
    · right
      rw [if_neg hinf]
      exact ⟨q0, e, rfl, hlt, hnorm, by omega, rnd_arith_down _ _ _ _ _ hPpos hdm hup⟩

/-- A few values of the model: `1`, `0.2`, `1/3`, `2 ^ 24 + 1` (not representable, rounds to
`2 ^ 24`), `2 ^ 64 - 1` (rounds to `2 ^ 64`), `255 * 0.5 = 127.5`, and an overflow. -/
theorem f32_examples :
    F32.ofNat 1 = F32.fin 8388608 126 ∧
      F32.div (F32.ofNat 1) (F32.ofNat 5) = F32.fin 13421773 123 ∧
      F32.div (F32.ofNat 1) (F32.ofNat 3) = F32.fin 11184811 124 ∧
      F32.ofNat 16777217 = F32.ofNat 16777216 ∧
      F32.ofNat (2 ^ 64 - 1) = F32.fin 8388608 190 ∧
      (F32.mul (F32.ofNat 255) (F32.fin 8388608 125)).trunc? = some 127 ∧
      F32.round (F32.mul (F32.ofNat 255) (F32.fin 8388608 125)) = F32.ofNat 128 ∧
      F32.mul (F32.ofNat (2 ^ 64)) (F32.ofNat (2 ^ 64)) = F32.inf := by
  decide

/-! ## Bytes of a painted image -/

theorem getD_set_nat (l : List Nat) (i j a : Nat) :
    (l.set i a).getD j 0 = if j = i ∧ i < l.length then a else l.getD j 0 := by
  simp only [List.getD_eq_getElem?_getD, List.getElem?_set]
  by_cases h : i = j
  · subst h
    by_cases h2 : i < l.length
    · simp [h2]
    · simp [h2, List.getElem?_eq_none (Nat.le_of_not_lt h2)]
  · have : ¬ j = i := fun e => h e.symm
    simp [h, this]

theorem getD_of_length_le (l : List Nat) (i : Nat) (h : l.length ≤ i) : l.getD i 0 = 0 := by
  simp [List.getD_eq_getElem?_getD, List.getElem?_eq_none h]

theorem list_ext_getD (l₁ l₂ : List Nat) (hl : l₁.length = l₂.length)
    (h : ∀ j, l₁.getD j 0 = l₂.getD j 0) : l₁ = l₂ := by
  apply List.ext_getElem hl
  intro n h1 h2
  have := h n
  simpa [List.getD_eq_getElem?_getD, List.getElem?_eq_getElem h1,
    List.getElem?_eq_getElem h2] using this

theorem chan_le (v c : Nat) : chan v c ≤ c := by
  unfold chan; split <;> omega

theorem chan_of_lt (v c : Nat) (h : c < v) : chan v c = c := by
  unfold chan; rw [if_neg (by omega)]

theorem chan_byte (v c : Nat) (h : c < 256) : chan v c = if v ≤ c then c - v else c := by
  unfold chan; split <;> omega

theorem length_sub_if_ge (image : List Nat) (i v : Nat) :
    (sub_if_ge image i v).length = image.length := by
  unfold sub_if_ge; split <;> simp

theorem getD_sub_if_ge (image : List Nat) (i v j : Nat) :
    (sub_if_ge image i v).getD j 0 = if j = i then chan v (image.getD i 0) else image.getD j 0 := by
  unfold sub_if_ge chan
  by_cases hv : v ≤ image.getD i 0
  · rw [if_pos hv, if_pos hv, getD_set_nat]
    by_cases hj : j = i
    · subst hj
      by_cases hl : j < image.length
      · simp [hl]
      · have h0 := getD_of_length_le image j (by omega)
        rw [h0] at hv ⊢
        have : v = 0 := by omega
        subst this
        simp [hl]
    · simp [hj]
  · rw [if_neg hv, if_neg hv]
    by_cases hj : j = i
    · subst hj; simp
    · simp [hj]

theorem length_paint (v : Nat) (image : List Nat) (p : Nat) :
    (paint v image p).length = image.length := by
  simp [paint, length_sub_if_ge]

theorem getD_paint (v : Nat) (image : List Nat) (p j : Nat) (hp : p + 3 < image.length) :
    (paint v image p).getD j 0 =
      if j = p + 3 then 255
      else if j = p + 2 then chan v (image.getD (p + 2) 0)
      else if j = p + 1 then chan v (image.getD (p + 1) 0)
      else if j = p then chan v (image.getD p 0)
      else image.getD j 0 := by
  unfold paint
  rw [getD_set_nat]
  simp only [length_sub_if_ge, getD_sub_if_ge]
  by_cases h3 : j = p + 3
  · simp [h3, hp]
  · rw [if_neg (by tauto), if_neg h3]
    by_cases h2 : j = p + 2
    · subst h2; simp
    · rw [if_neg h2, if_neg h2]
      by_cases h1 : j = p + 1
      · subst h1; simp
      · rw [if_neg h1, if_neg h1]

/-! ## `add_point` on a canvas -/

theorem U64_eq : U64 = 18446744073709551616 := by norm_num [U64]

theorem index_add (c : Env) (x y k : Nat) (hk : k < 4) :
    c.index x y k = c.index x y 0 + k := by
  unfold Env.index
  rw [U64_eq]
  have h : 4 * c.width * y + 4 * x = 4 * (c.width * y + x) := by ring
  rw [Nat.add_zero, h]
  generalize c.width * y + x = t
  omega

theorem add_point_eq (c : Env) (image : List Nat) (_x _y : Nat) :
    add_point c image _x _y =
      if c.base _x _y + 3 < image.length then .ok (paint c.v image (c.base _x _y))
      else .error .oob := by
  unfold add_point paint Env.base
  simp only [index_add c _ _ 1 (by omega), index_add c _ _ 2 (by omega),
    index_add c _ _ 3 (by omega)]
  by_cases h : c.index (c.pixel_x _x) (c.pixel_y _y) 0 + 3 < image.length
  · rw [if_pos h, if_pos ⟨by omega, by omega, by omega, h⟩]
  · rw [if_neg h, if_neg (fun hh => h hh.2.2.2)]

theorem pixel_x_le (c : Env) (_x : Nat) (hw : 1 ≤ c.width) (hU : c.width < U64) :
    c.pixel_x _x ≤ c.width - 1 := by
  unfold Env.pixel_x
  rw [U64_eq] at *
  omega

theorem pixel_y_le (c : Env) (_y : Nat) (hh : 1 ≤ c.height) (hU : c.height < U64) :
    c.pixel_y _y ≤ c.height - 1 := by
  unfold Env.pixel_y
  rw [U64_eq] at *
  omega

theorem dims_lt (w h : Nat) (hw : 1 ≤ w) (hh : 1 ≤ h) (hs : w * h * 4 < U64) :
    w < U64 ∧ h < U64 := by
  have h1 : w ≤ w * h := Nat.le_mul_of_pos_right w hh
  have h2 : h ≤ w * h := Nat.le_mul_of_pos_left h hw
  constructor <;> omega

theorem pixel_bytes_lt (w h x y k : Nat) (hx : x ≤ w - 1) (hy : y ≤ h - 1) (hw : 1 ≤ w)
    (hh : 1 ≤ h) (hk : k < 4) : 4 * w * y + 4 * x + k < w * h * 4 := by
  have h1 : w * y ≤ w * (h - 1) := Nat.mul_le_mul_left w hy
  have h2 : w * (h - 1) + w = w * h := by
    have : h - 1 + 1 = h := by omega
    calc w * (h - 1) + w = w * (h - 1 + 1) := by ring
      _ = w * h := by rw [this]
  have h3 : 4 * w * y = 4 * (w * y) := by ring
  omega

theorem index_canvas (c : Env) (x y k : Nat) (hw : 1 ≤ c.width) (hh : 1 ≤ c.height)
    (hs : c.width * c.height * 4 < U64) (hx : x ≤ c.width - 1) (hy : y ≤ c.height - 1)
    (hk : k < 4) :
    c.index x y k = 4 * c.width * y + 4 * x + k ∧
      c.index x y k < c.width * c.height * 4 := by
  have hb := pixel_bytes_lt c.width c.height x y k hx hy hw hh hk
  have he : c.index x y k = 4 * c.width * y + 4 * x + k := by
    unfold Env.index
    exact Nat.mod_eq_of_lt (by omega)
  exact ⟨he, by omega⟩

theorem base_canvas (c : Env) (image : List Nat) (_x _y : Nat) (hc : Canvas c image) :
    c.base _x _y = 4 * c.width * c.pixel_y _y + 4 * c.pixel_x _x ∧
      c.base _x _y + 3 < image.length := by
  obtain ⟨hw, hh, hs, hl⟩ := hc
  obtain ⟨hwU, hhU⟩ := dims_lt _ _ hw hh hs
  have hx := pixel_x_le c _x hw hwU
  have hy := pixel_y_le c _y hh hhU
  have h0 := index_canvas c _ _ 0 hw hh hs hx hy (by omega)
  have h3 := index_canvas c _ _ 3 hw hh hs hx hy (by omega)
  unfold Env.base
  omega

theorem add_point_canvas (c : Env) (image : List Nat) (_x _y : Nat) (hc : Canvas c image) :
    add_point c image _x _y = .ok (paint c.v image (c.base _x _y)) := by
  rw [add_point_eq, if_pos (base_canvas c image _x _y hc).2]

theorem canvas_paint (c : Env) (image : List Nat) (v p : Nat) (hc : Canvas c image) :
    Canvas c (paint v image p) := by
  obtain ⟨hw, hh, hs, hl⟩ := hc
  exact ⟨hw, hh, hs, by rw [length_paint, hl]⟩

theorem to_uint_lt (oor : F32 → Nat) (w : Nat) (x : F32) (hw : 0 < w) : to_uint oor w x < w := by
  unfold to_uint
  split
  · split
    · assumption
    · exact Nat.mod_lt _ hw
  · exact Nat.mod_lt _ hw

theorem v_le (c : Env) : c.v ≤ 255 := by
  have := to_uint_lt c.oor 256 c.alpha_value (by norm_num)
  unfold Env.v
  omega

/-! ## Postcondition of `add_point` -/

theorem getD_lt_of_bytes (image : List Nat) (hb : ∀ b ∈ image, b < 256) (j : Nat) :
    image.getD j 0 < 256 := by
  by_cases h : j < image.length
  · rw [List.getD_eq_getElem?_getD, List.getElem?_eq_getElem h]
    exact hb _ (List.getElem_mem h)
  · rw [getD_of_length_le image j (by omega)]
    norm_num

/-- C2: on every canvas, one call of `add_point` succeeds, keeps the size of the image,
turns each of the R, G, B bytes `c` of the addressed pixel into `c - v` when `v ≤ c` and
leaves it otherwise, sets its alpha byte to `255`, and leaves every byte outside the
addressed pixel unchanged; the accumulation value `v` is at most `255`. -/
theorem add_point_postcondition (c : Env) (image : List Nat) (_x _y : Nat)
    (hc : Canvas c image) (hb : ∀ b ∈ image, b < 256) :
    ∃ image', add_point c image _x _y = .ok image' ∧
      image'.length = image.length ∧
      c.v ≤ 255 ∧
      c.base _x _y = 4 * c.width * c.pixel_y _y + 4 * c.pixel_x _x ∧
      c.base _x _y + 3 < image.length ∧
      (∀ k, k < 3 → image'.getD (c.base _x _y + k) 0 =
        if c.v ≤ image.getD (c.base _x _y + k) 0 then image.getD (c.base _x _y + k) 0 - c.v
        else image.getD (c.base _x _y + k) 0) ∧
      image'.getD (c.base _x _y + 3) 0 = 255 ∧
      (∀ j, j < c.base _x _y ∨ c.base _x _y + 4 ≤ j → image'.getD j 0 = image.getD j 0) := by
  obtain ⟨hbase, hlt⟩ := base_canvas c image _x _y hc
  refine ⟨_, add_point_canvas c image _x _y hc, length_paint _ _ _, v_le c, hbase, hlt, ?_, ?_, ?_⟩
  · intro k hk
    rw [getD_paint _ _ _ _ hlt, ← chan_byte _ _ (getD_lt_of_bytes image hb _)]
    have hk' : k = 0 ∨ k = 1 ∨ k = 2 := by omega
    rcases hk' with rfl | rfl | rfl
    · rw [Nat.add_zero, if_neg (by omega), if_neg (by omega), if_neg (by omega), if_pos rfl]
    · rw [if_neg (by omega), if_neg (by omega), if_pos rfl]
    · rw [if_neg (by omega), if_pos rfl]
  · rw [getD_paint _ _ _ _ hlt, if_pos rfl]
  · intro j hj
    rw [getD_paint _ _ _ _ hlt, if_neg (by omega), if_neg (by omega), if_neg (by omega),
      if_neg (by omega)]

/-- Witness of C2: the call `add_point(1, 0)` on the white 2 by 2 canvas of `graph_pair`. -/
theorem add_point_postcondition_witness :
    ∃ image', add_point (mk_env oor_zero args_small 2) (List.replicate 16 255) 1 0
        = .ok image' ∧
      image'.length = (List.replicate 16 255).length ∧
      (mk_env oor_zero args_small 2).v ≤ 255 ∧
      (mk_env oor_zero args_small 2).base 1 0 =
        4 * (mk_env oor_zero args_small 2).width * (mk_env oor_zero args_small 2).pixel_y 0
          + 4 * (mk_env oor_zero args_small 2).pixel_x 1 ∧
      (mk_env oor_zero args_small 2).base 1 0 + 3 < (List.replicate 16 255).length ∧
      (∀ k, k < 3 → image'.getD ((mk_env oor_zero args_small 2).base 1 0 + k) 0 =
        if (mk_env oor_zero args_small 2).v
            ≤ (List.replicate 16 255).getD ((mk_env oor_zero args_small 2).base 1 0 + k) 0
        then (List.replicate 16 255).getD ((mk_env oor_zero args_small 2).base 1 0 + k) 0
          - (mk_env oor_zero args_small 2).v
        else (List.replicate 16 255).getD ((mk_env oor_zero args_small 2).base 1 0 + k) 0) ∧
      image'.getD ((mk_env oor_zero args_small 2).base 1 0 + 3) 0 = 255 ∧
      (∀ j, j < (mk_env oor_zero args_small 2).base 1 0
          ∨ (mk_env oor_zero args_small 2).base 1 0 + 4 ≤ j →
        image'.getD j 0 = (List.replicate 16 255).getD j 0) :=
  add_point_postcondition (mk_env oor_zero args_small 2) (List.replicate 16 255) 1 0
    (by decide) (by decide)

/-! ## Clamping and bounds -/

/-- C3 (as stated, refuted): for the `2 ^ 62` by `1` image the size passed to
`image.resize` wraps to `0`, so the first byte index of the pixel addressed by
`add_point(0, 0)` is not below the canvas size and the call writes out of bounds. -/
theorem add_point_out_of_bounds_wide :
    1 ≤ (mk_env oor_zero args_wide 1).width ∧ 1 ≤ (mk_env oor_zero args_wide 1).height ∧
      canvas_size (mk_env oor_zero args_wide 1).width (mk_env oor_zero args_wide 1).height = 0 ∧
      ¬ ((mk_env oor_zero args_wide 1).index ((mk_env oor_zero args_wide 1).pixel_x 0)
          ((mk_env oor_zero args_wide 1).pixel_y 0) 0
        < canvas_size (mk_env oor_zero args_wide 1).width (mk_env oor_zero args_wide 1).height) ∧
      add_point (mk_env oor_zero args_wide 1)
        (List.replicate
          (canvas_size (mk_env oor_zero args_wide 1).width (mk_env oor_zero args_wide 1).height)
          255) 0 0 = .error .oob ∧
      main_viz oor_zero args_wide graph_unit 0 = .error .oob := by
  decide

/-- C3 (amended): when `width ≥ 1`, `height ≥ 1` and `width * height * 4 < 2 ^ 64`, then
for every scale and every pair of linear coordinates the pixel coordinate computed by
`add_point` lies in `[0, width-1] × [0, height-1]`, each of the four byte indices equals
`4*width*py + 4*px + k` and is below the canvas size, and the call succeeds on every image
of that size. -/
theorem add_point_in_bounds (c : Env) (_x _y : Nat) (hw : 1 ≤ c.width) (hh : 1 ≤ c.height)
    (hs : c.width * c.height * 4 < U64) :
    c.pixel_x _x ≤ c.width - 1 ∧ c.pixel_y _y ≤ c.height - 1 ∧
      (∀ k, k < 4 →
        c.index (c.pixel_x _x) (c.pixel_y _y) k
            = 4 * c.width * c.pixel_y _y + 4 * c.pixel_x _x + k ∧
          c.index (c.pixel_x _x) (c.pixel_y _y) k < canvas_size c.width c.height) ∧
      ∀ image : List Nat, image.length = canvas_size c.width c.height →
        ∃ image', add_point c image _x _y = .ok image' := by
  obtain ⟨hwU, hhU⟩ := dims_lt _ _ hw hh hs
  have hx := pixel_x_le c _x hw hwU
  have hy := pixel_y_le c _y hh hhU
  have hcs : canvas_size c.width c.height = c.width * c.height * 4 := by
    unfold canvas_size
    exact Nat.mod_eq_of_lt hs
  refine ⟨hx, hy, ?_, ?_⟩
  · intro k hk
    rw [hcs]
    exact index_canvas c _ _ k hw hh hs hx hy hk
  · intro image hl
    exact ⟨_, add_point_canvas c image _x _y ⟨hw, hh, hs, by rw [hl, hcs]⟩⟩

/-- Witness of C3 (amended): a 2 by 2 canvas and the coordinates `(2 ^ 63, 2 ^ 63)`. -/
theorem add_point_in_bounds_witness :
    (mk_env oor_zero args_small 2).pixel_x (2 ^ 63) ≤ (mk_env oor_zero args_small 2).width - 1 ∧
      (mk_env oor_zero args_small 2).pixel_y (2 ^ 63)
        ≤ (mk_env oor_zero args_small 2).height - 1 ∧
      (∀ k, k < 4 →
        (mk_env oor_zero args_small 2).index ((mk_env oor_zero args_small 2).pixel_x (2 ^ 63))
            ((mk_env oor_zero args_small 2).pixel_y (2 ^ 63)) k
          = 4 * (mk_env oor_zero args_small 2).width
              * (mk_env oor_zero args_small 2).pixel_y (2 ^ 63)
            + 4 * (mk_env oor_zero args_small 2).pixel_x (2 ^ 63) + k ∧
        (mk_env oor_zero args_small 2).index ((mk_env oor_zero args_small 2).pixel_x (2 ^ 63))
            ((mk_env oor_zero args_small 2).pixel_y (2 ^ 63)) k
          < canvas_size (mk_env oor_zero args_small 2).width
              (mk_env oor_zero args_small 2).height) ∧
      ∀ image : List Nat,
        image.length = canvas_size (mk_env oor_zero args_small 2).width
            (mk_env oor_zero args_small 2).height →
          ∃ image', add_point (mk_env oor_zero args_small 2) image (2 ^ 63) (2 ^ 63)
            = .ok image' :=
  add_point_in_bounds (mk_env oor_zero args_small 2) (2 ^ 63) (2 ^ 63)
    (by decide) (by decide) (by decide)

/-! ## The position map -/

theorem hash_map_get_set_same (m : hash_map) (k v : Nat) : (hash_map.set m k v).get k = v := by
  induction m with
  | nil => simp [hash_map.set, hash_map.get]
  | cons p rest ih =>
    obtain ⟨k', v'⟩ := p
    by_cases h : k' = k
    · simp [hash_map.set, hash_map.get, h]
    · simpa [hash_map.set, hash_map.get, h] using ih

theorem hash_map_get_set_ne (m : hash_map) (k v j : Nat) (hj : j ≠ k) :
    (hash_map.set m k v).get j = m.get j := by
  induction m with
  | nil => simp [hash_map.set, hash_map.get, Ne.symm hj]
  | cons p rest ih =>
    obtain ⟨k', v'⟩ := p
    by_cases h : k' = k
    · subst h
      simp [hash_map.set, hash_map.get, Ne.symm hj]
    · by_cases h2 : k' = j
      · subst h2
        simp [hash_map.set, hash_map.get, h]
      · simpa [hash_map.set, hash_map.get, h, h2] using ih

theorem hash_map_keys_set (m : hash_map) (k v j : Nat) :
    j ∈ (hash_map.set m k v).map Prod.fst ↔ j = k ∨ j ∈ m.map Prod.fst := by
  induction m with
  | nil => simp [hash_map.set]
  | cons p rest ih =>
    obtain ⟨k', v'⟩ := p
    by_cases h : k' = k
    · subst h
      simp [hash_map.set]
    · simp only [hash_map.set, if_neg h, List.map_cons, List.mem_cons, ih]
      tauto

theorem hash_map_length_set (m : hash_map) (k v : Nat) (hk : k ∉ m.map Prod.fst) :
    (hash_map.set m k v).length = m.length + 1 := by
  induction m with
  | nil => simp [hash_map.set]
  | cons p rest ih =>
    obtain ⟨k', v'⟩ := p
    simp only [List.map_cons, List.mem_cons, not_or] at hk
    have h : ¬ k' = k := fun e => hk.1 e.symm
    simp [hash_map.set, h, ih hk.2]

/-- The loop invariant of the first `for_each_handle` pass, started from any state. -/
theorem position_fold (g : graph_t) :
    ∀ (es : List Nat) (pm0 : hash_map) (l0 : Nat),
      (es.map g.unpack_number).Nodup →
      (∀ h ∈ es, g.unpack_number h ∉ pm0.map Prod.fst) →
      l0 + (es.map g.get_length).sum < U64 →
      (es.foldl (fun s h => (hash_map.set s.1 (g.unpack_number h) s.2,
          (s.2 + g.get_length h) % U64)) (pm0, l0)).2 = l0 + (es.map g.get_length).sum ∧
      (es.foldl (fun s h => (hash_map.set s.1 (g.unpack_number h) s.2,
          (s.2 + g.get_length h) % U64)) (pm0, l0)).1.length = pm0.length + es.length ∧
      (∀ k, k ∉ es.map g.unpack_number →
        (es.foldl (fun s h => (hash_map.set s.1 (g.unpack_number h) s.2,
          (s.2 + g.get_length h) % U64)) (pm0, l0)).1.get k = pm0.get k) ∧
      (∀ i, i < es.length →
        (es.foldl (fun s h => (hash_map.set s.1 (g.unpack_number h) s.2,
          (s.2 + g.get_length h) % U64)) (pm0, l0)).1.get (g.unpack_number (es.getD i 0))
          = l0 + ((es.take i).map g.get_length).sum) := by
  intro es
  induction es with
  | nil =>
    intro pm0 l0 _ _ _
    simp
  | cons h t ih =>
    intro pm0 l0 hnd hfresh hsum
    simp only [List.map_cons, List.nodup_cons, List.sum_cons] at hnd hsum
    have hmod : (l0 + g.get_length h) % U64 = l0 + g.get_length h :=
      Nat.mod_eq_of_lt (by omega)
    have hh : g.unpack_number h ∉ pm0.map Prod.fst := hfresh h (List.mem_cons_self _ _)
    have hfresh' : ∀ h' ∈ t, g.unpack_number h' ∉
        (hash_map.set pm0 (g.unpack_number h) l0).map Prod.fst := by
      intro h' hm hin
      rcases (hash_map_keys_set _ _ _ _).1 hin with e | e
      · exact hnd.1 (e ▸ List.mem_map_of_mem _ hm)
      · exact hfresh h' (List.mem_cons_of_mem _ hm) e
    obtain ⟨i1, i2, i3, i4⟩ := ih (hash_map.set pm0 (g.unpack_number h) l0)
      (l0 + g.get_length h) hnd.2 hfresh' (by omega)
    simp only [List.foldl_cons, hmod, List.map_cons, List.sum_cons, List.length_cons]
    refine ⟨by rw [i1]; omega, by rw [i2, hash_map_length_set _ _ _ hh]; omega, ?_, ?_⟩
    · intro k hk
      simp only [List.mem_cons, not_or] at hk
      rw [i3 k hk.2, hash_map_get_set_ne _ _ _ _ hk.1]
    · intro i hi
      cases i with
      | zero =>
        simp only [List.getD_cons_zero, List.take_zero, List.map_nil, List.sum_nil, Nat.add_zero]
        rw [i3 _ hnd.1, hash_map_get_set_same]
      | succ j =>
        simp only [List.getD_cons_succ, List.take_succ_cons, List.map_cons, List.sum_cons]
        rw [i4 j (by omega)]
        omega

theorem sum_take_succ (l : List Nat) (k : Nat) (hk : k < l.length) :
    (l.take (k + 1)).sum = (l.take k).sum + l.getD k 0 := by
  induction l generalizing k with
  | nil => simp at hk
  | cons a t ih =>
    cases k with
    | zero => simp
    | succ j =>
      simp only [List.length_cons] at hk
      simp only [List.take_succ_cons, List.sum_cons, List.getD_cons_succ]
      rw [ih j (by omega)]
      omega

theorem sum_take_le (l : List Nat) (i j : Nat) (h : i ≤ j) : (l.take i).sum ≤ (l.take j).sum := by
  induction l generalizing i j with
  | nil => simp
  | cons a t ih =>
    cases i with
    | zero => simp
    | succ i' =>
      cases j with
      | zero => omega
      | succ j' =>
        simp only [List.take_succ_cons, List.sum_cons]
        have := ih i' j' (by omega)
        omega

/-- The offset of the `i`-th handle is the sum of the lengths of the handles before it. -/
theorem position_map_offsets (graph : graph_t)
    (hd : (graph.handles.map graph.unpack_number).Nodup)
    (hs : (graph.handles.map graph.get_length).sum < U64) :
    (build_position_map graph).1.length = graph.handles.length ∧
      (build_position_map graph).2 = (graph.handles.map graph.get_length).sum ∧
      ∀ i, i < graph.handles.length →
        (build_position_map graph).1.get (graph.unpack_number (graph.handles.getD i 0))
          = ((graph.handles.map graph.get_length).take i).sum := by
  obtain ⟨h1, h2, _, h4⟩ := position_fold graph graph.handles [] 0 hd (by simp) (by omega)
  unfold build_position_map
  refine ⟨by simpa using h2, by simpa using h1, ?_⟩
  intro i hi
  rw [h4 i hi, List.map_take]
  omega

/-- C1: for a graph whose handles have pairwise distinct canonical numbers (and whose total
length fits the `uint64_t` counter `len`, as the lengths of an in-memory graph do), the
position map has one entry per handle, the first handle has offset `0`, each later handle
has the offset of its predecessor plus the predecessor's length, offsets are non-decreasing
in iteration order, and `len` is the sum of all lengths, which is the offset of the last
handle plus its length. -/
theorem position_map_contract (graph : graph_t)
    (hd : (graph.handles.map graph.unpack_number).Nodup)
    (hs : (graph.handles.map graph.get_length).sum < U64) :
    (build_position_map graph).1.length = graph.handles.length ∧
      (0 < graph.handles.length →
        (build_position_map graph).1.get (graph.unpack_number (graph.handles.getD 0 0)) = 0) ∧
      (∀ k, k + 1 < graph.handles.length →
        (build_position_map graph).1.get (graph.unpack_number (graph.handles.getD (k + 1) 0))
          = (build_position_map graph).1.get (graph.unpack_number (graph.handles.getD k 0))
            + graph.get_length (graph.handles.getD k 0)) ∧
      (∀ i j, i ≤ j → j < graph.handles.length →
        (build_position_map graph).1.get (graph.unpack_number (graph.handles.getD i 0))
          ≤ (build_position_map graph).1.get (graph.unpack_number (graph.handles.getD j 0))) ∧
      (build_position_map graph).2 = (graph.handles.map graph.get_length).sum ∧
      (0 < graph.handles.length →
        (build_position_map graph).2
          = (build_position_map graph).1.get
              (graph.unpack_number (graph.handles.getD (graph.handles.length - 1) 0))
            + graph.get_length (graph.handles.getD (graph.handles.length - 1) 0)) := by
  obtain ⟨h1, h2, h3⟩ := position_map_offsets graph hd hs
  have hget : ∀ k, k < graph.handles.length →
      (graph.handles.map graph.get_length).getD k 0
        = graph.get_length (graph.handles.getD k 0) := by
    intro k hk
    simp [List.getD_eq_getElem?_getD, List.getElem?_eq_getElem hk]
  have hlen : (graph.handles.map graph.get_length).length = graph.handles.length := by simp
  refine ⟨h1, ?_, ?_, ?_, h2, ?_⟩
  · intro h0
    rw [h3 0 h0]
    simp
  · intro k hk
    rw [h3 (k + 1) hk, h3 k (by omega), sum_take_succ _ k (by omega), hget k (by omega)]
  · intro i j hij hj
    rw [h3 i (by omega), h3 j hj]
    exact sum_take_le _ i j hij
  · intro h0
    rw [h3 _ (by omega), h2, ← hget _ (by omega), ← sum_take_succ _ _ (by omega)]
    have : graph.handles.length - 1 + 1 = (graph.handles.map graph.get_length).length := by
      omega
    rw [this, List.take_length]

/-- Witness of C1: the two-handle graph of Scenario B. -/
theorem position_map_contract_witness :
    (build_position_map graph_B).1.length = graph_B.handles.length ∧
      (0 < graph_B.handles.length →
        (build_position_map graph_B).1.get
          (graph_B.unpack_number (graph_B.handles.getD 0 0)) = 0) ∧
      (∀ k, k + 1 < graph_B.handles.length →
        (build_position_map graph_B).1.get
            (graph_B.unpack_number (graph_B.handles.getD (k + 1) 0))
          = (build_position_map graph_B).1.get
              (graph_B.unpack_number (graph_B.handles.getD k 0))
            + graph_B.get_length (graph_B.handles.getD k 0)) ∧
      (∀ i j, i ≤ j → j < graph_B.handles.length →
        (build_position_map graph_B).1.get (graph_B.unpack_number (graph_B.handles.getD i 0))
          ≤ (build_position_map graph_B).1.get
              (graph_B.unpack_number (graph_B.handles.getD j 0))) ∧
      (build_position_map graph_B).2 = (graph_B.handles.map graph_B.get_length).sum ∧
      (0 < graph_B.handles.length →
        (build_position_map graph_B).2
          = (build_position_map graph_B).1.get
              (graph_B.unpack_number
                (graph_B.handles.getD (graph_B.handles.length - 1) 0))
            + graph_B.get_length (graph_B.handles.getD (graph_B.handles.length - 1) 0)) :=
  position_map_contract graph_B (by decide) (by decide)

/-! ## Repeated accumulation -/

theorem canvas_paint_all (c : Env) (ps : List (Nat × Nat)) :
    ∀ image, Canvas c image → Canvas c (paint_all c image ps) := by
  induction ps with
  | nil => intro image h; exact h
  | cons p t ih =>
    intro image h
    exact ih _ (canvas_paint c image _ _ h)

theorem add_points_canvas (c : Env) (ps : List (Nat × Nat)) :
    ∀ image, Canvas c image → add_points c image ps = .ok (paint_all c image ps) := by
  induction ps with
  | nil => intro image _; rfl
  | cons p t ih =>
    intro image h
    unfold add_points at ih ⊢
    rw [List.foldlM_cons, add_point_canvas c image _ _ h]
    exact ih _ (canvas_paint c image _ _ h)

theorem paint_all_append (c : Env) (image : List Nat) (ps qs : List (Nat × Nat)) :
    paint_all c image (ps ++ qs) = paint_all c (paint_all c image ps) qs := by
  simp [paint_all, List.foldl_append]

/-- C7: on every canvas and for every `n ≥ 1`, the first `n - 1` and the first `n` calls of
`add_point` at one coordinate succeed; the `n`-th call leaves each of R, G, B of the
addressed pixel at most what it was before, leaves alpha at `255`, and once R, G and B are
all below `v` a further call returns the image unchanged. -/
theorem accumulate_monotone (c : Env) (image : List Nat) (_x _y n : Nat)
    (hc : Canvas c image) (hn : 1 ≤ n) :
    ∃ prev cur, add_points c image (List.replicate (n - 1) (_x, _y)) = .ok prev ∧
      add_points c image (List.replicate n (_x, _y)) = .ok cur ∧
      add_point c prev _x _y = .ok cur ∧
      (∀ k, k < 3 → cur.getD (c.base _x _y + k) 0 ≤ prev.getD (c.base _x _y + k) 0) ∧
      cur.getD (c.base _x _y + 3) 0 = 255 ∧
      ((∀ k, k < 3 → cur.getD (c.base _x _y + k) 0 < c.v) →
        add_point c cur _x _y = .ok cur) := by
  obtain ⟨m, rfl⟩ : ∃ m, n = m + 1 := ⟨n - 1, by omega⟩
  have hprev := canvas_paint_all c (List.replicate m (_x, _y)) image hc
  have hcur := canvas_paint c _ c.v (c.base _x _y) hprev
  have hlt := (base_canvas c _ _x _y hprev).2
  have hlt' := (base_canvas c _ _x _y hcur).2
  refine ⟨paint_all c image (List.replicate m (_x, _y)),
    paint c.v (paint_all c image (List.replicate m (_x, _y))) (c.base _x _y),
    add_points_canvas c _ image hc, ?_, add_point_canvas c _ _x _y hprev, ?_, ?_, ?_⟩
  · rw [add_points_canvas c _ image hc, List.replicate_succ', paint_all_append]
    rfl
  · intro k hk
    rw [getD_paint _ _ _ _ hlt]
    have hk' : k = 0 ∨ k = 1 ∨ k = 2 := by omega
    rcases hk' with rfl | rfl | rfl
    · rw [Nat.add_zero, if_neg (by omega), if_neg (by omega), if_neg (by omega), if_pos rfl]
      exact chan_le _ _
    · rw [if_neg (by omega), if_neg (by omega), if_pos rfl]
      exact chan_le _ _
    · rw [if_neg (by omega), if_pos rfl]
      exact chan_le _ _
  · rw [getD_paint _ _ _ _ hlt, if_pos rfl]
  · intro hsat
    rw [add_point_canvas c _ _x _y hcur]
    congr 1
    apply list_ext_getD _ _ (length_paint _ _ _)
    intro j
    have h0 := hsat 0 (by omega)
    have h1 := hsat 1 (by omega)
    have h2 := hsat 2 (by omega)
    rw [Nat.add_zero] at h0
    rw [getD_paint _ _ _ _ hlt']
    by_cases e3 : j = c.base _x _y + 3
    · rw [if_pos e3, e3, getD_paint _ _ _ _ hlt, if_pos rfl]
    · rw [if_neg e3]
      by_cases e2 : j = c.base _x _y + 2
      · rw [if_pos e2, e2, chan_of_lt _ _ h2]
      · rw [if_neg e2]
        by_cases e1 : j = c.base _x _y + 1
        · rw [if_pos e1, e1, chan_of_lt _ _ h1]
        · rw [if_neg e1]
          by_cases e0 : j = c.base _x _y
          · rw [if_pos e0, e0, chan_of_lt _ _ h0]
          · rw [if_neg e0]

/-- Witness of C7: three calls of `add_point(1, 0)` on the white 2 by 2 canvas. -/
theorem accumulate_monotone_witness :
    ∃ prev cur,
      add_points (mk_env oor_zero args_small 2) (List.replicate 16 255)
          (List.replicate (3 - 1) (1, 0)) = .ok prev ∧
      add_points (mk_env oor_zero args_small 2) (List.replicate 16 255)
          (List.replicate 3 (1, 0)) = .ok cur ∧
      add_point (mk_env oor_zero args_small 2) prev 1 0 = .ok cur ∧
      (∀ k, k < 3 → cur.getD ((mk_env oor_zero args_small 2).base 1 0 + k) 0
        ≤ prev.getD ((mk_env oor_zero args_small 2).base 1 0 + k) 0) ∧
      cur.getD ((mk_env oor_zero args_small 2).base 1 0 + 3) 0 = 255 ∧
      ((∀ k, k < 3 → cur.getD ((mk_env oor_zero args_small 2).base 1 0 + k) 0
          < (mk_env oor_zero args_small 2).v) →
        add_point (mk_env oor_zero args_small 2) cur 1 0 = .ok cur) :=
  accumulate_monotone (mk_env oor_zero args_small 2) (List.replicate 16 255) 1 0 3
    (by decide) (by decide)

/-! ## Order independence -/

theorem base_mod4 (c : Env) (_x _y : Nat) : c.base _x _y % 4 = 0 := by
  unfold Env.base Env.index
  rw [U64_eq]
  have h : 4 * c.width * c.pixel_y _y + 4 * c.pixel_x _x
      = 4 * (c.width * c.pixel_y _y + c.pixel_x _x) := by ring
  rw [Nat.add_zero, h]
  generalize c.width * c.pixel_y _y + c.pixel_x _x = t
  omega

theorem getD_paint_range (v : Nat) (image : List Nat) (p j : Nat) (hp : p + 3 < image.length) :
    (paint v image p).getD j 0 =
      if p ≤ j ∧ j < p + 4 then (if j = p + 3 then 255 else chan v (image.getD j 0))
      else image.getD j 0 := by
  rw [getD_paint _ _ _ _ hp]
  by_cases h3 : j = p + 3
  · rw [if_pos h3, if_pos (by omega), if_pos h3]
  · rw [if_neg h3]
    by_cases h2 : j = p + 2
    · rw [if_pos h2, if_pos (by omega), if_neg h3, h2]
    · rw [if_neg h2]
      by_cases h1 : j = p + 1
      · rw [if_pos h1, if_pos (by omega), if_neg h3, h1]
      · rw [if_neg h1]
        by_cases h0 : j = p
        · rw [if_pos h0, if_pos (by omega), if_neg h3, h0]
        · rw [if_neg h0, if_neg (by omega)]

theorem paint_comm (v : Nat) (image : List Nat) (p q : Nat) (hp : p + 3 < image.length)
    (hq : q + 3 < image.length) (hp4 : p % 4 = 0) (hq4 : q % 4 = 0) :
    paint v (paint v image p) q = paint v (paint v image q) p := by
  by_cases hpq : p = q
  · rw [hpq]
  · apply list_ext_getD _ _ (by simp [length_paint])
    intro j
    rw [getD_paint_range v (paint v image p) q j (by rw [length_paint]; exact hq),
      getD_paint_range v (paint v image q) p j (by rw [length_paint]; exact hp),
      getD_paint_range v image p j hp, getD_paint_range v image q j hq]
    by_cases hjq : q ≤ j ∧ j < q + 4
    · have hjp : ¬ (p ≤ j ∧ j < p + 4) := by omega
      rw [if_pos hjq, if_neg hjp, if_neg hjp, if_pos hjq]
    · rw [if_neg hjq, if_neg hjq]

theorem paint_base_comm (c : Env) (image : List Nat) (a b a' b' : Nat) (hc : Canvas c image) :
    paint c.v (paint c.v image (c.base a b)) (c.base a' b')
      = paint c.v (paint c.v image (c.base a' b')) (c.base a b) :=
  paint_comm _ _ _ _ (base_canvas c image a b hc).2 (base_canvas c image a' b' hc).2
    (base_mod4 c a b) (base_mod4 c a' b')

theorem add_point_comm (c : Env) (image : List Nat) (p q : Nat × Nat) :
    (add_point c image p.1 p.2 >>= fun im => add_point c im q.1 q.2)
      = (add_point c image q.1 q.2 >>= fun im => add_point c im p.1 p.2) := by
  simp only [add_point_eq]
  by_cases hp : c.base p.1 p.2 + 3 < image.length
  · by_cases hq : c.base q.1 q.2 + 3 < image.length
    · simp only [if_pos hp, if_pos hq, bind, Except.bind, length_paint]
      rw [paint_comm _ _ _ _ hp hq (base_mod4 _ _ _) (base_mod4 _ _ _)]
    · simp only [if_pos hp, if_neg hq, bind, Except.bind, length_paint]
  · by_cases hq : c.base q.1 q.2 + 3 < image.length
    · simp only [if_neg hp, if_pos hq, bind, Except.bind, length_paint]
    · simp only [if_neg hp, if_neg hq, bind, Except.bind]

theorem add_points_cons (c : Env) (image : List Nat) (p : Nat × Nat) (ps : List (Nat × Nat)) :
    add_points c image (p :: ps) = (add_point c image p.1 p.2 >>= fun im => add_points c im ps) := by
  unfold add_points
  rw [List.foldlM_cons]

theorem add_points_perm (c : Env) (ps qs : List (Nat × Nat)) (h : ps.Perm qs) :
    ∀ image, add_points c image ps = add_points c image qs := by
  induction h with
  | nil => intro image; rfl
  | cons x _ ih =>
    intro image
    rw [add_points_cons, add_points_cons]
    congr 1
    funext im
    exact ih im
  | swap x y l =>
    intro image
    simp only [add_points_cons]
    have h := add_point_comm c image y x
    have e1 : (add_point c image y.1 y.2 >>= fun im =>
        add_point c im x.1 x.2 >>= fun im => add_points c im l)
        = ((add_point c image y.1 y.2 >>= fun im => add_point c im x.1 x.2) >>= fun im =>
            add_points c im l) := by rw [bind_assoc]
    have e2 : (add_point c image x.1 x.2 >>= fun im =>
        add_point c im y.1 y.2 >>= fun im => add_points c im l)
        = ((add_point c image x.1 x.2 >>= fun im => add_point c im y.1 y.2) >>= fun im =>
            add_points c im l) := by rw [bind_assoc]
    rw [e1, e2, h]
  | trans _ _ ih1 ih2 =>
    intro image
    rw [ih1, ih2]

theorem oblivious_add_point (c : Env) (x y : Nat) :
    Oblivious c (fun im => add_point c im x y) := by
  intro image hc
  beta_reduce
  rw [add_point_canvas c image x y hc]
  constructor
  · intro r hr
    cases hr
    exact canvas_paint c image _ _ hc
  · intro a b
    rw [add_point_canvas c _ x y (canvas_paint c image _ _ hc),
      paint_base_comm c image a b x y hc]

theorem oblivious_bind (c : Env) (G1 G2 : List Nat → Except Err (List Nat))
    (h1 : Oblivious c G1) (h2 : Oblivious c G2) : Oblivious c (fun im => G1 im >>= G2) := by
  intro image hc
  obtain ⟨k1, c1⟩ := h1 image hc
  beta_reduce
  cases e : G1 image with
  | error err =>
    constructor
    · intro r hr
      simp [bind, Except.bind] at hr
    · intro a b
      rw [c1 a b, e]
      rfl
  | ok r1 =>
    constructor
    · intro r hr
      exact (h2 r1 (k1 r1 e)).1 r hr
    · intro a b
      rw [c1 a b, e]
      exact (h2 r1 (k1 r1 e)).2 a b

theorem oblivious_pure (c : Env) : Oblivious c (fun im => Except.ok im) := by
  intro image hc
  exact ⟨fun r hr => by cases hr; exact hc, fun a b => rfl⟩

theorem oblivious_foldlM {α : Type} (c : Env) (f : List Nat → α → Except Err (List Nat))
    (l : List α) (h : ∀ a, Oblivious c (fun im => f im a)) :
    Oblivious c (fun im => l.foldlM f im) := by
  induction l with
  | nil => exact oblivious_pure c
  | cons a t ih =>
    have := oblivious_bind c _ _ (h a) ih
    simpa [List.foldlM_cons] using this

theorem walk_y_oblivious (c : Env) (x dist a b : Nat) :
    ∀ (fuel : Nat) (image : List Nat) (i : Nat), Canvas c image →
      (∀ r, walk_y c x dist fuel image i = .ok r → Canvas c r.1) ∧
      walk_y c x dist fuel (paint c.v image (c.base a b)) i =
        match walk_y c x dist fuel image i with
        | .ok r => .ok (paint c.v r.1 (c.base a b), r.2)
        | .error e => .error e := by
  intro fuel
  induction fuel with
  | zero =>
    intro image i hc
    by_cases h : i < dist
    · simp [walk_y, h]
    · simp only [walk_y, if_neg h]
      exact ⟨fun r hr => by cases hr; exact hc, trivial⟩
  | succ n ih =>
    intro image i hc
    by_cases h : i < dist
    · simp only [walk_y, if_pos h]
      rw [add_point_canvas c _ x i (canvas_paint c image _ _ hc), add_point_canvas c image x i hc,
        paint_base_comm c image a b x i hc]
      exact ih _ _ (canvas_paint c image _ _ hc)
    · simp only [walk_y, if_neg h]
      exact ⟨fun r hr => by cases hr; exact hc, trivial⟩

theorem walk_x_oblivious (c : Env) (b i : Nat) :
    ∀ (fuel : Nat) (a : Nat), Oblivious c (fun im => walk_x c b i fuel im a) := by
  intro fuel
  induction fuel with
  | zero =>
    intro a image hc
    by_cases h : a < b
    · simp [walk_x, h]
    · simp only [walk_x, if_neg h]
      exact ⟨fun r hr => by cases hr; exact hc, fun _ _ => trivial⟩
  | succ n ih =>
    intro a image hc
    by_cases h : a < b
    · simp only [walk_x, if_pos h]
      rw [add_point_canvas c image a i hc]
      constructor
      · exact (ih _ _ (canvas_paint c image _ _ hc)).1
      · intro a' b'
        rw [add_point_canvas c _ a i (canvas_paint c image _ _ hc),
          paint_base_comm c image a' b' a i hc]
        exact (ih _ _ (canvas_paint c image _ _ hc)).2 a' b'
    · simp only [walk_x, if_neg h]
      exact ⟨fun r hr => by cases hr; exact hc, fun _ _ => trivial⟩

theorem add_edge_oblivious (c : Env) (graph : graph_t) (position_map : hash_map)
    (fuel h o : Nat) : Oblivious c (fun im => add_edge c graph position_map fuel im h o) := by
  intro image hc
  beta_reduce
  simp only [add_edge]
  generalize min (position_map.get (graph.unpack_number h))
    (position_map.get (graph.unpack_number o)) = a
  generalize max (position_map.get (graph.unpack_number h))
    (position_map.get (graph.unpack_number o)) = b
  have key := fun a' b' => walk_y_oblivious c a (b - a) a' b' fuel image 0 hc
  cases e1 : walk_y c a (b - a) fuel image 0 with
  | error err =>
    refine ⟨fun r hr => by simp at hr, fun a' b' => ?_⟩
    rw [(key a' b').2, e1]
  | ok r1 =>
    have hc1 : Canvas c r1.1 := (key 0 0).1 r1 e1
    have k2 : (∀ r, walk_x c b r1.2 fuel r1.1 a = .ok r → Canvas c r) ∧
        ∀ a' b', walk_x c b r1.2 fuel (paint c.v r1.1 (c.base a' b')) a =
          match walk_x c b r1.2 fuel r1.1 a with
          | .ok r => .ok (paint c.v r (c.base a' b'))
          | .error e => .error e := walk_x_oblivious c b r1.2 fuel a r1.1 hc1
    simp only
    cases e2 : walk_x c b r1.2 fuel r1.1 a with
    | error err =>
      refine ⟨fun r hr => by simp at hr, fun a' b' => ?_⟩
      rw [(key a' b').2, e1]
      simp only
      rw [k2.2 a' b', e2]
    | ok r2 =>
      have hc2 : Canvas c r2 := k2.1 r2 e2
      have k3 := fun a' b' => walk_y_oblivious c b (b - a) a' b' fuel r2 0 hc2
      simp only
      cases e3 : walk_y c b (b - a) fuel r2 0 with
      | error err =>
        refine ⟨fun r hr => by simp at hr, fun a' b' => ?_⟩
        rw [(key a' b').2, e1]
        simp only
        rw [k2.2 a' b', e2]
        simp only
        rw [(k3 a' b').2, e3]
      | ok r3 =>
        refine ⟨fun r hr => ?_, fun a' b' => ?_⟩
        · simp only [Except.ok.injEq] at hr
          rw [← hr]
          exact (k3 0 0).1 r3 e3
        · rw [(key a' b').2, e1]
          simp only
          rw [k2.2 a' b', e2]
          simp only
          rw [(k3 a' b').2, e3]

theorem edge_pass_oblivious (c : Env) (graph : graph_t) (position_map : hash_map) (fuel : Nat) :
    Oblivious c (fun im => edge_pass c graph position_map fuel im) := by
  unfold edge_pass
  apply oblivious_foldlM
  intro h
  apply oblivious_foldlM
  intro o
  exact add_edge_oblivious c graph position_map fuel h o

theorem oblivious_paint_all (c : Env) (G : List Nat → Except Err (List Nat))
    (hG : Oblivious c G) (ps : List (Nat × Nat)) :
    ∀ image, Canvas c image →
      G (paint_all c image ps) =
        match G image with
        | .ok r => .ok (paint_all c r ps)
        | .error e => .error e := by
  induction ps with
  | nil =>
    intro image _
    show G image = _
    cases G image <;> rfl
  | cons p t ih =>
    intro image hc
    show G (paint_all c (paint c.v image (c.base p.1 p.2)) t) = _
    rw [ih _ (canvas_paint c image _ _ hc), (hG image hc).2 p.1 p.2]
    cases G image <;> rfl

theorem add_points_append (c : Env) (image : List Nat) (ps qs : List (Nat × Nat)) :
    add_points c image (ps ++ qs) = (add_points c image ps >>= fun im => add_points c im qs) := by
  unfold add_points
  rw [List.foldlM_append]

theorem self_pass_eq_add_points (c : Env) (graph : graph_t) (position_map : hash_map) :
    ∀ image, self_pass c graph position_map image
      = add_points c image (all_self_points graph position_map) := by
  unfold self_pass all_self_points
  induction graph.handles with
  | nil => intro image; rfl
  | cons h t ih =>
    intro image
    rw [List.foldlM_cons, List.map_cons, List.flatten_cons, add_points_append]
    congr 1
    funext im
    exact ih im

theorem self_pass_canvas (c : Env) (graph : graph_t) (position_map : hash_map)
    (image : List Nat) (hc : Canvas c image) :
    self_pass c graph position_map image
      = .ok (paint_all c image (all_self_points graph position_map)) := by
  rw [self_pass_eq_add_points, add_points_canvas c _ image hc]

theorem passes_commute (c : Env) (graph : graph_t) (position_map : hash_map) (fuel : Nat)
    (image : List Nat) (hc : Canvas c image) :
    (self_pass c graph position_map image >>= edge_pass c graph position_map fuel)
      = (edge_pass c graph position_map fuel image >>= self_pass c graph position_map) := by
  have hE := edge_pass_oblivious c graph position_map fuel
  rw [self_pass_canvas c graph position_map image hc]
  show edge_pass c graph position_map fuel
      (paint_all c image (all_self_points graph position_map)) = _
  rw [oblivious_paint_all c _ hE _ image hc]
  cases e : edge_pass c graph position_map fuel image with
  | error err => rfl
  | ok r =>
    show _ = self_pass c graph position_map r
    rw [self_pass_canvas c graph position_map r ((hE image hc).1 r e)]

/-- C9: for a fixed environment (hence a fixed accumulation value), two `add_point` calls
give the same result in either order on every image; a sequence of calls gives the same
result under every permutation; and on a canvas, running the edge pass before the element
pass gives the same result as running the element pass first. -/
theorem accumulate_order_independent (c : Env) (graph : graph_t) (position_map : hash_map)
    (fuel : Nat) (image : List Nat) (p q : Nat × Nat) (ps qs : List (Nat × Nat))
    (hperm : ps.Perm qs) (hc : Canvas c image) :
    (add_point c image p.1 p.2 >>= fun im => add_point c im q.1 q.2)
        = (add_point c image q.1 q.2 >>= fun im => add_point c im p.1 p.2) ∧
      add_points c image ps = add_points c image qs ∧
      (self_pass c graph position_map image >>= edge_pass c graph position_map fuel)
        = (edge_pass c graph position_map fuel image >>= self_pass c graph position_map) :=
  ⟨add_point_comm c image p q, add_points_perm c ps qs hperm image,
    passes_commute c graph position_map fuel image hc⟩

/-- Witness of C9: the two-handle graph `graph_pair` drawn on a 2 by 2 canvas; both orders
of the passes complete with the same image. -/
theorem accumulate_order_independent_witness :
    ((add_point (mk_env oor_zero args_small 2) (List.replicate 16 255) 0 0 >>= fun im =>
          add_point (mk_env oor_zero args_small 2) im 1 0)
        = (add_point (mk_env oor_zero args_small 2) (List.replicate 16 255) 1 0 >>= fun im =>
          add_point (mk_env oor_zero args_small 2) im 0 0) ∧
      add_points (mk_env oor_zero args_small 2) (List.replicate 16 255) [(0, 0), (1, 0), (0, 1)]
        = add_points (mk_env oor_zero args_small 2) (List.replicate 16 255)
            [(0, 1), (0, 0), (1, 0)] ∧
      (self_pass (mk_env oor_zero args_small 2) graph_pair (build_position_map graph_pair).1
            (List.replicate 16 255)
          >>= edge_pass (mk_env oor_zero args_small 2) graph_pair
            (build_position_map graph_pair).1 5)
        = (edge_pass (mk_env oor_zero args_small 2) graph_pair
            (build_position_map graph_pair).1 5 (List.replicate 16 255)
          >>= self_pass (mk_env oor_zero args_small 2) graph_pair
            (build_position_map graph_pair).1)) ∧
      (edge_pass (mk_env oor_zero args_small 2) graph_pair
            (build_position_map graph_pair).1 5 (List.replicate 16 255)
          >>= self_pass (mk_env oor_zero args_small 2) graph_pair
            (build_position_map graph_pair).1)
        = .ok [0, 0, 0, 255, 0, 0, 0, 255, 0, 0, 0, 255, 255, 255, 255, 255] :=
  ⟨accumulate_order_independent (mk_env oor_zero args_small 2) graph_pair
    (build_position_map graph_pair).1 5 (List.replicate 16 255) (0, 0) (1, 0)
    [(0, 0), (1, 0), (0, 1)] [(0, 1), (0, 0), (1, 0)] (by decide) (by decide), by decide⟩

/-! ## The empty graph -/

theorem rnd_ne_zero (n : Nat) (hn : 1 ≤ n) :
    F32.rnd n 1 = F32.inf ∨ ∃ m e, F32.rnd n 1 = F32.fin m e ∧ m ≠ 0 := by
  unfold F32.rnd
  simp only [Nat.div_one, Nat.one_mul]
  have hN : 1 ≤ n * 2 ^ 149 := Nat.mul_pos hn (by positivity)
  generalize n * 2 ^ 149 = N at hN ⊢
  have hD : 2 ^ (ilog2 N - 23) ≤ N :=
    le_trans (Nat.pow_le_pow_right (by norm_num) (Nat.sub_le _ _)) (two_pow_ilog2_go_le N N hN)
  have hq : 1 ≤ N / 2 ^ (ilog2 N - 23) := (Nat.one_le_div_iff (by positivity)).2 hD
  generalize N / 2 ^ (ilog2 N - 23) = q at hq ⊢
  generalize N % 2 ^ (ilog2 N - 23) = r
  generalize 2 ^ (ilog2 N - 23) = D
  generalize ilog2 N - 23 = e
  split_ifs <;> first
    | exact Or.inl rfl
    | exact Or.inr ⟨_, _, rfl, by omega⟩

theorem div_by_zero_len (w : Nat) (hw : 1 ≤ w) :
    F32.div (F32.ofNat w) (F32.ofNat 0) = F32.inf := by
  have h0 : F32.ofNat 0 = F32.fin 0 0 := by decide
  rw [h0]
  unfold F32.ofNat
  rcases rnd_ne_zero w hw with h | ⟨m, e, h, hm⟩
  · rw [h]; rfl
  · rw [h]; simp [F32.div, hm]

theorem args_width_pos (args : Args) : 1 ≤ args.width := by
  unfold Args.width
  split <;> omega

theorem position_fold_zero (g : graph_t) :
    ∀ (es : List Nat) (pm0 : hash_map), (∀ h ∈ es, g.get_length h = 0) →
      (∀ k, pm0.get k = 0) →
      (es.foldl (fun s h => (hash_map.set s.1 (g.unpack_number h) s.2,
          (s.2 + g.get_length h) % U64)) (pm0, 0)).2 = 0 ∧
      ∀ k, (es.foldl (fun s h => (hash_map.set s.1 (g.unpack_number h) s.2,
          (s.2 + g.get_length h) % U64)) (pm0, 0)).1.get k = 0 := by
  intro es
  induction es with
  | nil => intro pm0 _ h0; exact ⟨rfl, h0⟩
  | cons h t ih =>
    intro pm0 hz h0
    have hl : g.get_length h = 0 := hz h (List.mem_cons_self _ _)
    simp only [List.foldl_cons, hl, Nat.add_zero, Nat.zero_mod]
    apply ih _ (fun h' hm => hz h' (List.mem_cons_of_mem _ hm))
    intro k
    by_cases hk : k = g.unpack_number h
    · rw [hk, hash_map_get_set_same]
    · rw [hash_map_get_set_ne _ _ _ _ hk, h0]

theorem foldlM_ok_of_id {α : Type} (f : List Nat → α → Except Err (List Nat)) (l : List α)
    (image : List Nat) (hf : ∀ a ∈ l, f image a = .ok image) :
    l.foldlM f image = .ok image := by
  induction l with
  | nil => rfl
  | cons a t ih =>
    rw [List.foldlM_cons, hf a (List.mem_cons_self _ _)]
    exact ih (fun a' hm => hf a' (List.mem_cons_of_mem _ hm))

theorem walk_y_zero_dist (c : Env) (x fuel : Nat) (image : List Nat) (i : Nat) :
    walk_y c x 0 fuel image i = .ok (image, i) := by
  cases fuel <;> simp [walk_y]

theorem walk_x_not_lt (c : Env) (b i fuel : Nat) (image : List Nat) (a : Nat) (h : ¬ a < b) :
    walk_x c b i fuel image a = .ok image := by
  cases fuel <;> simp [walk_x, h]

theorem add_point_empty (c : Env) (_x _y : Nat) : add_point c [] _x _y = .error .oob := by
  simp [add_point]

theorem zero_length_passes (c : Env) (graph : graph_t) (fuel : Nat)
    (hz : ∀ h ∈ graph.handles, graph.get_length h = 0) :
    all_self_points graph (build_position_map graph).1 = [] ∧
      (∀ image, self_pass c graph (build_position_map graph).1 image = .ok image) ∧
      ∀ image, edge_pass c graph (build_position_map graph).1 fuel image = .ok image := by
  obtain ⟨_, hpm⟩ := position_fold_zero graph graph.handles [] hz (fun _ => rfl)
  have hpm' : ∀ k, (build_position_map graph).1.get k = 0 := hpm
  have hpts : all_self_points graph (build_position_map graph).1 = [] := by
    unfold all_self_points
    rw [List.flatten_eq_nil_iff]
    intro l hl
    obtain ⟨h, hm, rfl⟩ := List.mem_map.1 hl
    simp [self_points, hz h hm]
  refine ⟨hpts, ?_, ?_⟩
  · intro image
    rw [self_pass_eq_add_points, hpts]
    rfl
  · intro image
    unfold edge_pass
    apply foldlM_ok_of_id
    intro h _
    apply foldlM_ok_of_id
    intro o _
    simp only [add_edge, hpm', Nat.min_self, Nat.max_self, Nat.sub_self, walk_y_zero_dist]
    rw [walk_x_not_lt _ _ _ _ _ _ (by omega)]

/-- C6 (amended): with an output path, a width and a height below `2 ^ 32`, a canvas size
`width * height * 4` below `2 ^ 64` that `image.resize` can obtain, and a graph whose
handles all have length `0` (in particular a graph without handles): `len` is `0`; `scale`
is computed as `width / 0`, which is `+infinity`; the element pass has no `add_point` call to
make, and both passes return every image unchanged, also the empty image, on which every
call of `add_point` fails, so neither pass calls `add_point`; the emitter is called with the
all-white `width` by `height` canvas, and `main_viz` returns `0`. -/
theorem main_viz_zero_length (mem : Nat) (oor : F32 → Nat) (args : Args) (graph : graph_t)
    (fuel : Nat) (hout : args.png_out_file.length ≠ 0) (hw : args.width < U32)
    (hh : args.height < U32) (hs : args.width * args.height * 4 < U64)
    (hm : args.width * args.height * 4 ≤ mem)
    (hz : ∀ h ∈ graph.handles, graph.get_length h = 0) :
    (build_position_map graph).2 = 0 ∧
      (mk_env oor args (build_position_map graph).2).scale = F32.inf ∧
      all_self_points graph (build_position_map graph).1 = [] ∧
      (∀ image, self_pass (mk_env oor args (build_position_map graph).2) graph
        (build_position_map graph).1 image = .ok image) ∧
      (∀ image, edge_pass (mk_env oor args (build_position_map graph).2) graph
        (build_position_map graph).1 fuel image = .ok image) ∧
      (∀ _x _y, add_point (mk_env oor args (build_position_map graph).2) [] _x _y
        = .error .oob) ∧
      main_viz_mem mem oor args graph fuel =
        .ok ⟨0, some (args.png_out_file,
          List.replicate (args.width * args.height * 4) 255, args.width, args.height)⟩ := by
  obtain ⟨hlen, _⟩ := position_fold_zero graph graph.handles [] hz (fun _ => rfl)
  have hlen' : (build_position_map graph).2 = 0 := hlen
  obtain ⟨hpts, hself, hedge⟩ :=
    zero_length_passes (mk_env oor args (build_position_map graph).2) graph fuel hz
  have hcs : canvas_size args.width args.height = args.width * args.height * 4 :=
    Nat.mod_eq_of_lt hs
  refine ⟨hlen', ?_, hpts, hself, hedge, fun _ _ => add_point_empty _ _ _, ?_⟩
  · rw [hlen']
    exact div_by_zero_len args.width (args_width_pos args)
  · unfold main_viz_mem
    rw [if_neg hout]
    show (if mem < canvas_size args.width args.height then Except.error Err.alloc
      else
        match self_pass (mk_env oor args (build_position_map graph).2) graph
          (build_position_map graph).1
          (List.replicate (canvas_size args.width args.height) 255) with
        | Except.error e => Except.error e
        | Except.ok image =>
          match edge_pass (mk_env oor args (build_position_map graph).2) graph
              (build_position_map graph).1 fuel image with
          | Except.error e => Except.error e
          | Except.ok image =>
            Except.ok (Output.mk 0
              (some (args.png_out_file, image, args.width % U32, args.height % U32)))) = _
    rw [hcs, if_neg (by omega), hself, Nat.mod_eq_of_lt hw, Nat.mod_eq_of_lt hh]
    simp only [hedge]

/-- C6 (as stated, refuted): on the graph without handles, with an output path and enough
memory for the 16 bytes of a 2 by 2 image, `main_viz` returns `0` and calls the emitter with
a white 2 by 2 image. -/
theorem main_viz_empty_graph_emits :
    main_viz_mem 16 oor_zero args_small graph_empty 0
      = .ok ⟨0, some ("out.png", List.replicate 16 255, 2, 2)⟩ := by
  decide

/-- Outside the hypotheses of `main_viz_zero_length`: when the 16 bytes of the 2 by 2 image
cannot be obtained the run ends in `image.resize`, without emitting; and for a width of
`2 ^ 62 + 1` and a height of `4` the canvas size wraps to `16` and the emitter receives the
width `1`. -/
theorem main_viz_mem_examples :
    main_viz_mem 15 oor_zero args_small graph_empty 0 = .error .alloc ∧
      main_viz_mem 16 oor_zero args_wrap graph_empty 0
        = .ok ⟨0, some ("out.png", List.replicate 16 255, 1, 4)⟩ := by
  decide

/-- Witness of C6 (amended): the graph without handles and a 2 by 2 image. -/
theorem main_viz_zero_length_witness :
    (build_position_map graph_empty).2 = 0 ∧
      (mk_env oor_zero args_small (build_position_map graph_empty).2).scale = F32.inf ∧
      all_self_points graph_empty (build_position_map graph_empty).1 = [] ∧
      (∀ image, self_pass (mk_env oor_zero args_small (build_position_map graph_empty).2)
        graph_empty (build_position_map graph_empty).1 image = .ok image) ∧
      (∀ image, edge_pass (mk_env oor_zero args_small (build_position_map graph_empty).2)
        graph_empty (build_position_map graph_empty).1 7 image = .ok image) ∧
      (∀ _x _y, add_point (mk_env oor_zero args_small (build_position_map graph_empty).2) []
        _x _y = .error .oob) ∧
      main_viz_mem 16 oor_zero args_small graph_empty 7 =
        .ok ⟨0, some (args_small.png_out_file,
          List.replicate (args_small.width * args_small.height * 4) 255,
          args_small.width, args_small.height)⟩ :=
  main_viz_zero_length 16 oor_zero args_small graph_empty 7 (by decide) (by decide)
    (by decide) (by decide) (by decide) (by decide)

/-! ## Scenario C: alpha `0.5` -/

theorem to_uint_of_trunc (oor : F32 → Nat) (w : Nat) (x : F32) (t : Nat)
    (h : x.trunc? = some t) (ht : t < w) : to_uint oor w x = t := by
  unfold to_uint
  rw [h]
  simp [ht]

theorem v_all_values (oor : F32 → Nat) (v : Nat) (hv : v < 256) :
    to_uint oor 256 (F32.ofNat v) = v := by
  have h : ∀ v, v < 256 → (F32.ofNat v).trunc? = some v := by decide
  exact to_uint_of_trunc _ _ _ v (h v hv) hv

theorem v_of_half (oor : F32 → Nat) (args : Args) (len : Nat) (ha : args.alpha = half) :
    (mk_env oor args len).v = 127 := by
  unfold Env.v mk_env
  simp only [ha]
  exact to_uint_of_trunc _ _ _ 127 (by decide) (by norm_num)

/-- C4 (as stated, refuted): with alpha `0.5` the accumulation value is `127`, so one call
on a white pixel does not leave `(127,127,127,255)` but `(128,128,128,255)`, and a second
call does not leave `(0,0,0,255)` but `(1,1,1,255)`. -/
theorem scenario_C_not_as_stated :
    add_point (mk_env oor_zero args_C 1) [255, 255, 255, 255] 0 0 ≠ .ok [127, 127, 127, 255] ∧
      add_point (mk_env oor_zero args_C 1) [255, 255, 255, 255] 0 0
        = .ok [128, 128, 128, 255] ∧
      add_points (mk_env oor_zero args_C 1) [255, 255, 255, 255] [(0, 0), (0, 0)]
        ≠ .ok [0, 0, 0, 255] ∧
      add_points (mk_env oor_zero args_C 1) [255, 255, 255, 255] [(0, 0), (0, 0)]
        = .ok [1, 1, 1, 255] := by
  decide

/-- C4 (amended): with alpha `0.5` the accumulation value is `255 * 0.5 = 127.5` truncated
to `127`; on every canvas one call on a white pixel `(255,255,255,255)` leaves
`(128,128,128,255)`, and a second call on the same pixel leaves `(1,1,1,255)`. -/
theorem scenario_C (oor : F32 → Nat) (args : Args) (len : Nat) (image : List Nat) (_x _y : Nat)
    (ha : args.alpha = half) (hc : Canvas (mk_env oor args len) image)
    (hwhite : ∀ k, k < 4 → image.getD ((mk_env oor args len).base _x _y + k) 0 = 255) :
    (mk_env oor args len).alpha_value = F32.mul (F32.ofNat 255) half ∧
      (mk_env oor args len).v = 127 ∧
      ∃ im1 im2, add_point (mk_env oor args len) image _x _y = .ok im1 ∧
        add_point (mk_env oor args len) im1 _x _y = .ok im2 ∧
        (∀ k, k < 3 → im1.getD ((mk_env oor args len).base _x _y + k) 0 = 128) ∧
        im1.getD ((mk_env oor args len).base _x _y + 3) 0 = 255 ∧
        (∀ k, k < 3 → im2.getD ((mk_env oor args len).base _x _y + k) 0 = 1) ∧
        im2.getD ((mk_env oor args len).base _x _y + 3) 0 = 255 := by
  have hv := v_of_half oor args len ha
  have hav : (mk_env oor args len).alpha_value = F32.mul (F32.ofNat 255) half := by
    simp only [mk_env, ha]
    rfl
  generalize mk_env oor args len = c at hc hwhite hv hav ⊢
  have hc1 := canvas_paint c image c.v (c.base _x _y) hc
  have hlt := (base_canvas c image _x _y hc).2
  have hlt1 := (base_canvas c _ _x _y hc1).2
  have h1 : ∀ k, k < 3 → (paint c.v image (c.base _x _y)).getD (c.base _x _y + k) 0 = 128 := by
    intro k hk
    rw [getD_paint_range _ _ _ _ hlt, if_pos (by omega), if_neg (by omega),
      hwhite k (by omega), hv]
    decide
  refine ⟨hav, hv, _, _, add_point_canvas c image _x _y hc, add_point_canvas c _ _x _y hc1,
    h1, ?_, ?_, ?_⟩
  · rw [getD_paint_range _ _ _ _ hlt, if_pos (by omega), if_pos rfl]
  · intro k hk
    rw [getD_paint_range _ _ _ _ hlt1, if_pos (by omega), if_neg (by omega), h1 k hk, hv]
    decide
  · rw [getD_paint_range _ _ _ _ hlt1, if_pos (by omega), if_pos rfl]

/-- Witness of C4 (amended): the single white pixel of `args_C`. -/
theorem scenario_C_witness :
    (mk_env oor_zero args_C 1).alpha_value = F32.mul (F32.ofNat 255) half ∧
      (mk_env oor_zero args_C 1).v = 127 ∧
      ∃ im1 im2, add_point (mk_env oor_zero args_C 1) [255, 255, 255, 255] 0 0 = .ok im1 ∧
        add_point (mk_env oor_zero args_C 1) im1 0 0 = .ok im2 ∧
        (∀ k, k < 3 → im1.getD ((mk_env oor_zero args_C 1).base 0 0 + k) 0 = 128) ∧
        im1.getD ((mk_env oor_zero args_C 1).base 0 0 + 3) 0 = 255 ∧
        (∀ k, k < 3 → im2.getD ((mk_env oor_zero args_C 1).base 0 0 + k) 0 = 1) ∧
        im2.getD ((mk_env oor_zero args_C 1).base 0 0 + 3) 0 = 255 :=
  scenario_C oor_zero args_C 1 [255, 255, 255, 255] 0 0 rfl (by decide) (by decide)

/-! ## Evaluating coordinates -/

theorem pixel_x_eq (c : Env) (_x t : Nat)
    (h : (F32.round (F32.mul (F32.ofNat _x) c.scale)).trunc? = some t) (ht : t < U64)
    (hw : t ≤ (c.width + U64 - 1) % U64) : c.pixel_x _x = t := by
  unfold Env.pixel_x
  rw [to_uint_of_trunc _ _ _ t h ht]
  exact Nat.min_eq_left hw

theorem pixel_y_eq (c : Env) (_y t : Nat)
    (h : (F32.round (F32.mul (F32.ofNat _y) c.scale)).trunc? = some t) (ht : t < U64)
    (hw : t ≤ (c.height + U64 - 1) % U64) : c.pixel_y _y = t := by
  unfold Env.pixel_y
  rw [to_uint_of_trunc _ _ _ t h ht]
  exact Nat.min_eq_left hw

theorem step_eq (c : Env) (i t : Nat)
    (h : (F32.add (F32.ofNat i) (F32.div (F32.ofNat 1) c.scale)).trunc? = some t)
    (ht : t < U64) : c.step i = t := by
  unfold Env.step
  exact to_uint_of_trunc _ _ _ t h ht

theorem args_height_pos (args : Args) : 1 ≤ args.height := by
  unfold Args.height
  split <;> omega

theorem canvas_init (oor : F32 → Nat) (args : Args) (len : Nat)
    (hs : args.width * args.height * 4 < U64) :
    Canvas (mk_env oor args len)
      (List.replicate (canvas_size args.width args.height) 255) := by
  refine ⟨args_width_pos args, args_height_pos args, hs, ?_⟩
  rw [List.length_replicate]
  exact Nat.mod_eq_of_lt hs

/-! ## `main_viz` on a canvas -/

theorem main_viz_canvas (oor : F32 → Nat) (args : Args) (graph : graph_t) (fuel : Nat)
    (hout : args.png_out_file.length ≠ 0) (hs : args.width * args.height * 4 < U64) :
    main_viz oor args graph fuel =
      match edge_pass (mk_env oor args (build_position_map graph).2) graph
          (build_position_map graph).1 fuel
          (paint_all (mk_env oor args (build_position_map graph).2)
            (List.replicate (canvas_size args.width args.height) 255)
            (all_self_points graph (build_position_map graph).1)) with
      | .error e => .error e
      | .ok image =>
        .ok ⟨0, some (args.png_out_file, image, args.width % U32, args.height % U32)⟩ := by
  unfold main_viz
  rw [if_neg hout]
  show (match self_pass (mk_env oor args (build_position_map graph).2) graph
      (build_position_map graph).1 (List.replicate (canvas_size args.width args.height) 255) with
    | Except.error e => Except.error e
    | Except.ok image =>
      match edge_pass (mk_env oor args (build_position_map graph).2) graph
          (build_position_map graph).1 fuel image with
      | Except.error e => Except.error e
      | Except.ok image =>
        Except.ok (Output.mk 0
          (some (args.png_out_file, image, args.width % U32, args.height % U32)))) = _
  rw [self_pass_canvas _ _ _ _ (canvas_init oor args _ hs)]

/-! ## Scenario B: the edge pass -/

theorem walk_y_stuck (c : Env) (x dist i : Nat) (hstep : c.step i = i) (hi : i < dist) :
    ∀ (fuel : Nat) (image : List Nat), Canvas c image →
      walk_y c x dist fuel image i = .error .fuel := by
  intro fuel
  induction fuel with
  | zero => intro image _; simp [walk_y, hi]
  | succ n ih =>
    intro image hc
    simp only [walk_y, if_pos hi]
    rw [add_point_canvas c image x i hc]
    simp only [hstep]
    exact ih _ (canvas_paint c image _ _ hc)

theorem scale_B (oor : F32 → Nat) : (mk_env oor args_B 10).scale = F32.ofNat 5 := by
  show F32.div (F32.ofNat args_B.width) (F32.ofNat 10) = F32.ofNat 5
  decide

theorem step_B (oor : F32 → Nat) : (mk_env oor args_B 10).step 0 = 0 := by
  apply step_eq _ _ _ (by rw [scale_B]; decide) (by norm_num)

theorem add_edge_stuck (c : Env) (graph : graph_t) (position_map : hash_map) (fuel : Nat)
    (image : List Nat) (h o : Nat) (hc : Canvas c image) (hstep : c.step 0 = 0)
    (hne : position_map.get (graph.unpack_number h) ≠ position_map.get (graph.unpack_number o)) :
    add_edge c graph position_map fuel image h o = .error .fuel := by
  simp only [add_edge]
  rw [walk_y_stuck c _ _ 0 hstep (by omega) fuel image hc]

theorem edge_pass_B (oor : F32 → Nat) (fuel : Nat) (image : List Nat)
    (hc : Canvas (mk_env oor args_B 10) image) :
    edge_pass (mk_env oor args_B 10) graph_B [(0, 0), (1, 5)] fuel image = .error .fuel := by
  have he : add_edge (mk_env oor args_B 10) graph_B [(0, 0), (1, 5)] fuel image 0 1
      = .error .fuel :=
    add_edge_stuck _ _ _ _ _ _ _ hc (step_B oor) (by decide)
  show ([0, 1] : List Nat).foldlM _ image = _
  rw [List.foldlM_cons]
  show (([1] : List Nat).foldlM _ image >>= _) = _
  rw [List.foldlM_cons, he]
  rfl

/-- C5 (evaluation of the code on Scenario B): the position map is `0 ↦ 0, 1 ↦ 5` with
`len = 10`, the scale is `5`, the float step `1/scale` is `0.2` (`13421773 * 2 ^ -26`), the
counter update `i += 1/scale` maps `0` to `0`, and for every amount of fuel the run of
`main_viz` is still inside the first loop of `add_edge`: it never completes. -/
theorem scenario_B_never_completes (oor : F32 → Nat) (fuel : Nat) :
    build_position_map graph_B = ([(0, 0), (1, 5)], 10) ∧
      (mk_env oor args_B 10).scale = F32.ofNat 5 ∧
      F32.div (F32.ofNat 1) (mk_env oor args_B 10).scale = F32.fin 13421773 123 ∧
      (mk_env oor args_B 10).step 0 = 0 ∧
      main_viz oor args_B graph_B fuel = .error .fuel := by
  have hpm : build_position_map graph_B = ([(0, 0), (1, 5)], 10) := by decide
  refine ⟨hpm, scale_B oor, by rw [scale_B]; decide, step_B oor, ?_⟩
  rw [main_viz_canvas oor args_B graph_B fuel (by decide) (by decide)]
  simp only [hpm]
  have hc1 := canvas_paint_all (mk_env oor args_B 10) (all_self_points graph_B [(0, 0), (1, 5)])
    _ (canvas_init oor args_B 10 (by decide))
  rw [edge_pass_B oor fuel _ hc1]

/-! ## Stepping at scale `1` -/

theorem scale_long (oor : F32 → Nat) :
    (mk_env oor args_long 33554432).scale = F32.ofNat 1 := by
  show F32.div (F32.ofNat args_long.width) (F32.ofNat 33554432) = F32.ofNat 1
  decide

/-- C10 (evaluation of the code on a gap): for `graph_long` drawn one pixel per base
(`width = len = 2 ^ 25`, so `scale = 1` and `1/scale = 1`), the edge from the second to the
third handle has `a = 16777218`, `b = 16777224`, `dist = 6`; the first loop steps its counter
`0, 1, …, 6` and ends; the walk of `a` then starts at `16777218`, and the update
`a += 1/scale` stores `16777220`, because `16777219` is not a binary32 value and the sum
rounds to even; the two consecutive marks land on the pixel columns `16777218` and
`16777220`, which are `2` apart; and from `16777220 < b` the update no longer advances. -/
theorem stepping_gap_at_scale_one (oor : F32 → Nat) :
    build_position_map graph_long = ([(0, 0), (1, 16777218), (2, 16777224)], 33554432) ∧
      (mk_env oor args_long 33554432).scale = F32.ofNat 1 ∧
      (∀ i, i < 6 → (mk_env oor args_long 33554432).step i = i + 1) ∧
      (mk_env oor args_long 33554432).step 16777218 = 16777220 ∧
      (mk_env oor args_long 33554432).pixel_x 16777218 = 16777218 ∧
      (mk_env oor args_long 33554432).pixel_x 16777220 = 16777220 ∧
      (mk_env oor args_long 33554432).step 16777220 = 16777220 := by
  have h6 : ∀ i, i < 6 →
      (F32.add (F32.ofNat i) (F32.div (F32.ofNat 1) (F32.ofNat 1))).trunc? = some (i + 1) := by
    decide
  refine ⟨by decide, scale_long oor, ?_, ?_, ?_, ?_, ?_⟩
  · intro i hi
    exact step_eq _ _ _ (by rw [scale_long]; exact h6 i hi) (by rw [U64_eq]; omega)
  · exact step_eq _ _ _ (by rw [scale_long]; decide) (by norm_num)
  · exact pixel_x_eq _ _ _ (by rw [scale_long]; decide) (by norm_num)
      (by show 16777218 ≤ (33554432 + U64 - 1) % U64; decide)
  · exact pixel_x_eq _ _ _ (by rw [scale_long]; decide) (by norm_num)
      (by show 16777220 ≤ (33554432 + U64 - 1) % U64; decide)
  · exact step_eq _ _ _ (by rw [scale_long]; decide) (by norm_num)

/-! ## Scenario A -/

theorem getD_paint_all_miss (c : Env) (ps : List (Nat × Nat)) :
    ∀ image, Canvas c image → ∀ j,
      (∀ p ∈ ps, ¬ (c.base p.1 p.2 ≤ j ∧ j < c.base p.1 p.2 + 4)) →
      (paint_all c image ps).getD j 0 = image.getD j 0 := by
  induction ps with
  | nil => intro image _ j _; rfl
  | cons q t ih =>
    intro image hc j hmiss
    show (paint_all c (paint c.v image (c.base q.1 q.2)) t).getD j 0 = _
    rw [ih _ (canvas_paint c image _ _ hc) j (fun p hp => hmiss p (List.mem_cons_of_mem _ hp)),
      getD_paint_range _ _ _ _ (base_canvas c image q.1 q.2 hc).2,
      if_neg (hmiss q (List.mem_cons_self _ _))]

theorem getD_paint_all_hit (c : Env) (ps : List (Nat × Nat)) :
    ∀ image, Canvas c image → ∀ j p, p ∈ ps →
      (c.base p.1 p.2 ≤ j ∧ j < c.base p.1 p.2 + 4) →
      (ps.map (fun p => c.base p.1 p.2)).Nodup →
      (paint_all c image ps).getD j 0 =
        if j = c.base p.1 p.2 + 3 then 255 else chan c.v (image.getD j 0) := by
  induction ps with
  | nil => intro image _ j p hp; simp at hp
  | cons q t ih =>
    intro image hc j p hp hj hnd
    simp only [List.map_cons, List.nodup_cons, List.mem_map, not_exists, not_and] at hnd
    have hlt := (base_canvas c image q.1 q.2 hc).2
    show (paint_all c (paint c.v image (c.base q.1 q.2)) t).getD j 0 = _
    rcases List.mem_cons.1 hp with e | hpt
    · subst e
      rw [getD_paint_all_miss c t _ (canvas_paint c image _ _ hc) j, getD_paint_range _ _ _ _ hlt,
        if_pos hj]
      intro p' hp' hr
      have hne : c.base p'.1 p'.2 ≠ c.base p.1 p.2 := hnd.1 p' hp'
      have h1 := base_mod4 c p'.1 p'.2
      have h2 := base_mod4 c p.1 p.2
      omega
    · rw [ih _ (canvas_paint c image _ _ hc) j p hpt hj hnd.2, getD_paint_range _ _ _ _ hlt]
      have hne : c.base p.1 p.2 ≠ c.base q.1 q.2 := hnd.1 p hpt
      have h1 := base_mod4 c q.1 q.2
      have h2 := base_mod4 c p.1 p.2
      rw [if_neg (show ¬ (c.base q.1 q.2 ≤ j ∧ j < c.base q.1 q.2 + 4) by omega)]

theorem scale_A (oor : F32 → Nat) : (mk_env oor args_A 10).scale = F32.ofNat 10 := by
  show F32.div (F32.ofNat args_A.width) (F32.ofNat 10) = F32.ofNat 10
  decide

theorem v_A (oor : F32 → Nat) : (mk_env oor args_A 10).v = 255 :=
  to_uint_of_trunc _ _ _ 255
    (by
      show (F32.mul (F32.ofNat 255)
        (if args_A.alpha.isZero then F32.ofNat 1 else args_A.alpha)).trunc? = some 255
      decide)
    (by norm_num)

theorem pixel_x_A (oor : F32 → Nat) (i : Nat) (hi : i < 10) :
    (mk_env oor args_A 10).pixel_x i = 10 * i := by
  have h : ∀ i, i < 10 →
      (F32.round (F32.mul (F32.ofNat i) (F32.ofNat 10))).trunc? = some (10 * i) := by decide
  exact pixel_x_eq _ _ _ (by rw [scale_A]; exact h i hi) (by rw [U64_eq]; omega)
    (by show 10 * i ≤ (100 + U64 - 1) % U64; rw [U64_eq]; omega)

theorem pixel_y_A (oor : F32 → Nat) : (mk_env oor args_A 10).pixel_y 0 = 0 :=
  pixel_y_eq _ _ _ (by rw [scale_A]; decide) (by norm_num)
    (by show 0 ≤ (100 + U64 - 1) % U64; decide)

theorem base_A (oor : F32 → Nat) (i : Nat) (hi : i < 10) :
    (mk_env oor args_A 10).base i 0 = 40 * i := by
  unfold Env.base Env.index
  rw [pixel_x_A oor i hi, pixel_y_A oor]
  show (4 * 100 * 0 + 4 * (10 * i) + 0) % U64 = 40 * i
  rw [U64_eq]
  omega

theorem points_A :
    all_self_points graph_A (build_position_map graph_A).1
      = [(0, 0), (1, 0), (2, 0), (3, 0), (4, 0), (5, 0), (6, 0), (7, 0), (8, 0), (9, 0)] := by
  decide

theorem edge_pass_A (c : Env) (position_map : hash_map) (fuel : Nat) (image : List Nat) :
    edge_pass c graph_A position_map fuel image = .ok image := by
  unfold edge_pass
  apply foldlM_ok_of_id
  intro h _
  rfl

/-- The image emitted in Scenario A, byte by byte. -/
theorem scenario_A_image (oor : F32 → Nat) (fuel : Nat) :
    ∃ img, main_viz oor args_A graph_A fuel = .ok ⟨0, some ("out.png", img, 100, 100)⟩ ∧
      ∀ x y k, x < 100 → y < 100 → k < 4 →
        img.getD (4 * 100 * y + 4 * x + k) 0
          = if y = 0 ∧ x % 10 = 0 ∧ k < 3 then 0 else 255 := by
  have hpm : (build_position_map graph_A).2 = 10 := by decide
  have hc0 := canvas_init oor args_A 10 (by decide)
  refine ⟨paint_all (mk_env oor args_A (build_position_map graph_A).2)
    (List.replicate (canvas_size args_A.width args_A.height) 255)
    (all_self_points graph_A (build_position_map graph_A).1), ?_, ?_⟩
  · rw [main_viz_canvas oor args_A graph_A fuel (by decide) (by decide), edge_pass_A]
    rfl
  · rw [hpm, points_A]
    have hcs : canvas_size args_A.width args_A.height = 40000 := by decide
    rw [hcs] at hc0 ⊢
    generalize hps : [((0 : Nat), (0 : Nat)), (1, 0), (2, 0), (3, 0), (4, 0), (5, 0), (6, 0),
      (7, 0), (8, 0), (9, 0)] = ps
    have hmem : ∀ p, p ∈ ps ↔ p.1 < 10 ∧ p.2 = 0 := by
      rw [← hps]
      intro p
      obtain ⟨a, b⟩ := p
      simp only [List.mem_cons, Prod.mk.injEq, List.mem_singleton, List.not_mem_nil, or_false]
      omega
    have hbases : ps.map (fun p => (mk_env oor args_A 10).base p.1 p.2)
        = [0, 40, 80, 120, 160, 200, 240, 280, 320, 360] := by
      rw [← hps]
      simp [base_A]
    intro x y k hx hy hk
    have hwhite : (List.replicate 40000 255).getD (4 * 100 * y + 4 * x + k) 0 = 255 := by
      rw [List.getD_eq_getElem?_getD, List.getElem?_replicate, if_pos (by omega)]
      rfl
    by_cases h : y = 0 ∧ x % 10 = 0
    · obtain ⟨hy0, hx0⟩ := h
      have hp : (x / 10, 0) ∈ ps := (hmem _).2 ⟨by omega, rfl⟩
      have hb := base_A oor (x / 10) (by omega)
      rw [getD_paint_all_hit _ ps _ hc0 _ (x / 10, 0) hp (by rw [hb]; constructor <;> omega)
        (by rw [hbases]; decide), hb, hwhite, v_A]
      by_cases hk3 : k = 3
      · rw [if_pos (by omega), if_neg (by omega)]
      · rw [if_neg (by omega), if_pos ⟨hy0, hx0, by omega⟩]
        decide
    · rw [getD_paint_all_miss _ ps _ hc0, hwhite, if_neg (by tauto)]
      intro p hp
      obtain ⟨hp1, hp2⟩ := (hmem p).1 hp
      obtain ⟨a, b⟩ := p
      simp only at hp1 hp2
      subst hp2
      rw [base_A oor a hp1]
      omega

/-- C8 (as stated, refuted): after the run of Scenario A the pixels `(99,0)` and `(1,0)` of
row `0` still hold the background `(255,255,255,255)`; they are not marked. -/
theorem scenario_A_pixel_99_unmarked :
    ∃ img, main_viz oor_zero args_A graph_A 0 = .ok ⟨0, some ("out.png", img, 100, 100)⟩ ∧
      img.getD (4 * 100 * 0 + 4 * 99 + 0) 0 = 255 ∧
      img.getD (4 * 100 * 0 + 4 * 99 + 1) 0 = 255 ∧
      img.getD (4 * 100 * 0 + 4 * 99 + 2) 0 = 255 ∧
      img.getD (4 * 100 * 0 + 4 * 99 + 3) 0 = 255 ∧
      img.getD (4 * 100 * 0 + 4 * 1 + 0) 0 = 255 := by
  obtain ⟨img, h1, h2⟩ := scenario_A_image oor_zero 0
  exact ⟨img, h1, h2 99 0 0 (by decide) (by decide) (by decide),
    h2 99 0 1 (by decide) (by decide) (by decide), h2 99 0 2 (by decide) (by decide) (by decide),
    h2 99 0 3 (by decide) (by decide) (by decide), h2 1 0 0 (by decide) (by decide) (by decide)⟩

/-- C8 (amended): in Scenario A the position map is `0 ↦ 0` with `len = 10`, the scale is
`10`, the accumulation value is `255`, linear position `i` in `0..9` maps to the pixel
`(10 * i, 0)`, the run returns `0` and emits a 100 by 100 image in which exactly the ten
pixels `(0,0), (10,0), …, (90,0)` hold `(0,0,0,255)` and every other pixel holds the
background `(255,255,255,255)`. -/
theorem scenario_A (oor : F32 → Nat) (fuel : Nat) :
    build_position_map graph_A = ([(0, 0)], 10) ∧
      (mk_env oor args_A 10).scale = F32.ofNat 10 ∧
      (mk_env oor args_A 10).v = 255 ∧
      (∀ i, i < 10 → (mk_env oor args_A 10).pixel_x i = 10 * i ∧
        (mk_env oor args_A 10).pixel_y 0 = 0) ∧
      ∃ img, main_viz oor args_A graph_A fuel = .ok ⟨0, some ("out.png", img, 100, 100)⟩ ∧
        ∀ x y k, x < 100 → y < 100 → k < 4 →
          img.getD (4 * 100 * y + 4 * x + k) 0
            = if y = 0 ∧ x % 10 = 0 ∧ k < 3 then 0 else 255 :=
  ⟨by decide, scale_A oor, v_A oor, fun i hi => ⟨pixel_x_A oor i hi, pixel_y_A oor⟩,
    scenario_A_image oor fuel⟩

/-- Witness of C8 (amended): linear position `3` lands on the pixel `(30, 0)`. -/
theorem scenario_A_witness :
    (mk_env oor_zero args_A 10).pixel_x 3 = 10 * 3 ∧ (mk_env oor_zero args_A 10).pixel_y 0 = 0 :=
  (scenario_A oor_zero 0).2.2.2.1 3 (by decide)

end Odgi
